import Mathlib

/-!
# Verification of `character.py` (symmetric-group character calculator)

This file is a shallow embedding of the program `character.py`, which computes
the permutation-module character `character_M` (number of tabloids fixed by a
permutation of a given cycle type) and the irreducible character `character_S`
(via a Murnaghan--Nakayama-style recursion over the rim hooks enumerated by
`rim_hooks`), together with proofs and refutations of the specified properties.

Conventions of the embedding:
* Python tuples/lists of integers become `List Nat` (shapes, partitions,
  cycle-length lists are lists of machine-independent naturals; the source
  only ever stores nonnegative values in them).
* Cell coordinates are `Int × Int`, exactly as in the source, where the DFS
  forms coordinates such as `(r - 1, c)` that can be negative and are then
  rejected by the membership test.
* The memoization caches (`lru_cache`) of the source do not change returned
  values (the cached functions are pure), so the embedding is the plain
  recursion.
* The recursion of the source's `dfs` stops as soon as `len(path)` reaches
  `hook_length`; the embedding makes this termination explicit with a fuel
  argument initialized to `hook_length`.  For `hook_length = 0` the source
  records no hook (the path starts at length 1 and only grows), and the
  embedding likewise returns `[]`.
-/

/-- Embedding of `parse_cycle_type`: index `i` (0-based) with count `k`
contributes the length `i+1` exactly `k` times, in ascending index order. -/
def parse_cycle_type (cycle_counts : List Nat) : List Nat :=
  cycle_counts.enum.flatMap (fun rc => List.replicate rc.2 (rc.1 + 1))

/-- Embedding of the inner `backtrack` of `character_M`: assign each remaining
cycle to a row with enough remaining capacity; a complete assignment counts 1
iff every capacity is exhausted.  The Python function returns an `int`, so the
embedding returns `Int`. -/
def backtrack (cycle_lengths : List Nat) (remaining : List Nat) : Int :=
  match cycle_lengths with
  | [] => if remaining.all (fun r => r == 0) then 1 else 0
  | length :: rest =>
      ((List.range remaining.length).map (fun i =>
        if length ≤ remaining.getD i 0 then
          backtrack rest (remaining.set i (remaining.getD i 0 - length))
        else 0)).sum

/-- Embedding of `character_M`. -/
def character_M (partition cycle_lengths : List Nat) : Int :=
  backtrack cycle_lengths partition

/-- Embedding of the cell set `{(r, c) for r, length in enumerate(shape) for c
in range(length)}` of `rim_hooks`, as a duplicate-free list. -/
def cellsList (shape : List Nat) : List (Int × Int) :=
  (List.range shape.length).flatMap (fun r =>
    (List.range (shape.getD r 0)).map (fun c : Nat => ((r : Int), (c : Int))))

/-- Membership in the cell set of a shape, as the source's `in cells` test:
`(r, c)` is occupied iff `0 ≤ r < len(shape)` and `0 ≤ c < shape[r]`. -/
def inCellsB (shape : List Nat) (p : Int × Int) : Bool :=
  decide (0 ≤ p.1) && decide (0 ≤ p.2) && decide (p.1 < (shape.length : Int)) &&
    decide (p.2 < ((shape.getD p.1.toNat 0 : Nat) : Int))

/-- Embedding of `is_border`: a cell is a border cell if its right or its lower
neighbour is missing from the cell set. -/
def borderB (shape : List Nat) (p : Int × Int) : Bool :=
  !inCellsB shape (p.1, p.2 + 1) || !inCellsB shape (p.1 + 1, p.2)

/-- Embedding of the `corners` list: cells with neither a right nor a lower
neighbour. -/
def corners (shape : List Nat) : List (Int × Int) :=
  (cellsList shape).filter (fun p =>
    !inCellsB shape (p.1, p.2 + 1) && !inCellsB shape (p.1 + 1, p.2))

/-- The per-row cell counts of the residual diagram `cells - set(path)`, one
count for each `r in range(len(shape))`, before the positivity filter. -/
def newRowCounts (shape : List Nat) (path : List (Int × Int)) : List Nat :=
  (List.range shape.length).map (fun r : Nat =>
    ((cellsList shape).filter
      (fun p => !path.contains p && p.1 == (r : Int))).length)

/-- Embedding of the `new_shape` reconstruction of `dfs`: per-row counts of the
residual cells, rows of size zero dropped (the source appends `row_len` only
`if row_len > 0`). -/
def newShapeOf (shape : List Nat) (path : List (Int × Int)) : List Nat :=
  (newRowCounts shape path).filter (fun l => decide (0 < l))

/-- Embedding of the recording step of `dfs` at `len(path) == hook_length`:
check `sum(new_shape) == sum(shape) - hook_length` (over `Int`, as in Python),
and record the descending-sorted residual shape together with
`height = #\x7bdistinct rows of the path\x7d - 1`. -/
def mkHook (shape : List Nat) (hookLength : Nat) (path : List (Int × Int)) :
    List (List Nat × Nat) :=
  if (((newShapeOf shape path).sum : Int) = (shape.sum : Int) - (hookLength : Int)) then
    [((newShapeOf shape path).insertionSort (· ≥ ·),
      (path.map Prod.fst).dedup.length - 1)]
  else []

/-- Embedding of the `dfs` of `rim_hooks`.  The path is stored reversed (head =
the source's `path[-1]`); `visited` is threaded exactly as in the source and is
always equal to the path as a set.  The fuel argument bounds the number of
extensions and is initialized to `hook_length` (see the module docstring). -/
def dfs (shape : List Nat) (hookLength : Nat) (fuel : Nat)
    (path visited : List (Int × Int)) : List (List Nat × Nat) :=
  if path.length = hookLength then mkHook shape hookLength path
  else
    match fuel, path with
    | 0, _ => []
    | _, [] => []
    | f + 1, last :: rest =>
        [((-1 : Int), (0 : Int)), ((0 : Int), (-1 : Int))].flatMap (fun d =>
          let nxt : Int × Int := (last.1 + d.1, last.2 + d.2)
          if inCellsB shape nxt && !visited.contains nxt && borderB shape nxt
          then dfs shape hookLength f (nxt :: last :: rest) (nxt :: visited)
          else [])

/-- Embedding of `rim_hooks`: run the DFS from every outer corner and collect
all recorded `(new_shape, height)` pairs. -/
def rim_hooks (shape : List Nat) (hookLength : Nat) : List (List Nat × Nat) :=
  (corners shape).flatMap (fun corner =>
    dfs shape hookLength hookLength [corner] [corner])

/-- Embedding of the inner `mn` of `character_S`: the Murnaghan--Nakayama-style
recursion of the source over the hooks returned by `rim_hooks`. -/
def mn : List Nat → List Nat → Int
  | _, [] => 1
  | shape, c :: rest =>
      ((rim_hooks shape c).map (fun nh => (-1 : Int) ^ nh.2 * mn nh.1 rest)).sum

/-- Embedding of `character_S`. -/
def character_S (partition cycle_lengths : List Nat) : Int :=
  mn partition cycle_lengths

/-- Embedding of the validated part of `main`: after parsing, `main` raises
`ValueError` iff `len(cycle_counts) != sum(partition)`, and otherwise returns
both characters of the expanded cycle type. -/
def run_main (partition cycle_counts : List Nat) : Except String (Int × Int) :=
  if cycle_counts.length ≠ partition.sum then
    Except.error "Cycle counts and partition length are not valid."
  else
    let cycle_lengths := parse_cycle_type cycle_counts
    Except.ok (character_M partition cycle_lengths,
               character_S partition cycle_lengths)

/-- The DFS path (stored reversed, head = current end) that walks the last `t`
cells of a single row of length `m`, ending at the outer corner `(0, m-1)`:
the cells `(0, m-t), …, (0, m-1)`. -/
def rowPath (m t : Nat) : List (Int × Int) :=
  (List.range t).map (fun i => ((0 : Int), ((m - t + i : Nat) : Int)))

/-- The DFS path (stored reversed) that walks the last `t` cells of a single
column of height `m`, ending at the outer corner `(m-1, 0)`: the cells
`(m-t, 0), …, (m-1, 0)`. -/
def colPath (m t : Nat) : List (Int × Int) :=
  (List.range t).map (fun i => (((m - t + i : Nat) : Int), (0 : Int)))

/-- A vertical run of `k` cells in column `c`, rows `r, r+1, …, r+k-1`, listed
top cell first (the reversed-path convention of the embedded DFS). -/
def vpath (r c : Int) (k : Nat) : List (Int × Int) :=
  (List.range k).map (fun i : Nat => (r + i, c))

/-- A horizontal run of `k` cells in row `r`, columns `c, c+1, …, c+k-1`,
listed leftmost cell first (the reversed-path convention of the DFS). -/
def hpath (r c : Int) (k : Nat) : List (Int × Int) :=
  (List.range k).map (fun i : Nat => (r, c + i))

/-- Row lengths after removing a vertical run: rows `R, …, R+k-1` (which all
have length `C+1`) lose their last cell and become length `C`. -/
def removeVert (shape : List Nat) (R C k : Nat) : List Nat :=
  (List.range shape.length).map
    (fun t : Nat => if R ≤ t ∧ t < R + k then C else shape.getD t 0)

/-- Row lengths after removing a horizontal run: row `R` (of length `C+k`) is
cut back to length `C`. -/
def removeHoriz (shape : List Nat) (R C : Nat) : List Nat :=
  (List.range shape.length).map
    (fun t : Nat => if t = R then C else shape.getD t 0)

/-- The outer-corner test of the source, as a single Boolean. -/
def IsCornerB (shape : List Nat) (p : Int × Int) : Bool :=
  inCellsB shape p && !inCellsB shape (p.1, p.2 + 1) && !inCellsB shape (p.1 + 1, p.2)

/-- Invariant of the DFS on a valid shape: the (reversed) path is a straight
vertical or horizontal run of border cells whose far end (the path's starting
point) is an outer corner. -/
def OkPath (shape : List Nat) (P : List (Int × Int)) : Prop :=
  (∀ p ∈ P, inCellsB shape p = true ∧ borderB shape p = true) ∧
  (∃ r c : Int, ∃ k : Nat, 0 < k ∧ P.length = k ∧
    ((P = vpath r c k ∧ IsCornerB shape (r + ((k - 1 : Nat) : Int), c) = true) ∨
     (P = hpath r c k ∧ IsCornerB shape (r, c + ((k - 1 : Nat) : Int)) = true)))

/-- A valid Young-diagram shape: non-increasing positive row lengths. -/
def ValidShape (shape : List Nat) : Prop :=
  List.Sorted (· ≥ ·) shape ∧ ∀ x ∈ shape, 0 < x

/-- The soundness contract of one `(new_shape, height)` pair returned by
`rim_hooks shape len`: the new shape is canonical (sorted non-increasing,
positive, `len` cells fewer), and it is realized by removing a duplicate-free
set `strip` of `len` cells of the diagram whose residual cells form a
left-justified valid Young diagram (the cells of the non-increasing row-count
list `rows`), with `height` = number of distinct rows touched by the removed
path minus one. -/
def RimHookOutputOK (shape : List Nat) (len : Nat) (ns : List Nat) (h : Nat) : Prop :=
  List.Sorted (· ≥ ·) ns ∧ (∀ x ∈ ns, 0 < x) ∧ ns.sum + len = shape.sum ∧
  ∃ strip : List (Int × Int), strip.Nodup ∧ strip.length = len ∧
    (∀ p ∈ strip, inCellsB shape p = true) ∧
    h + 1 = ((strip.map Prod.fst).dedup).length ∧
    ∃ rows : List Nat, List.Sorted (· ≥ ·) rows ∧
      (∀ p : Int × Int, inCellsB rows p = true ↔ (inCellsB shape p = true ∧ p ∉ strip)) ∧
      ns = rows.filter (fun x => decide (0 < x))

/-! ## Specification-side notion of a rim hook

Modelled from the spec's glossary: a rim hook of a diagram `lam` is "a
connected strip of cells along a diagram's outer border whose removal leaves a
valid smaller Young diagram".  We express this in the standard way: the cells
removed are the skew cells `lam / mu` for a smaller partition `mu` contained in
`lam`, they are edge-connected, and they form a strip (no `2 × 2` block of
cells, so the strip hugs the rim).  This definition follows the spec's words,
not the source, and is used to exhibit hooks that the source misses. -/

/-- A cell adjacency test (shared edge). -/
def adjB (p q : Int × Int) : Bool :=
  (decide (p.1 = q.1) && decide ((p.2 - q.2).natAbs = 1)) ||
    (decide (p.2 = q.2) && decide ((p.1 - q.1).natAbs = 1))

/-- One step of reachability closure inside the cell list `l`. -/
def growReach (l acc : List (Int × Int)) : List (Int × Int) :=
  l.filter (fun p => acc.contains p || acc.any (fun q => adjB p q))

/-- Iterated reachability closure. -/
def reachIter (l : List (Int × Int)) : Nat → List (Int × Int) → List (Int × Int)
  | 0, acc => acc
  | n + 1, acc => reachIter l n (growReach l acc)

/-- Edge-connectivity of a duplicate-free cell list: every cell is reachable
from the first one. -/
def connectedB (l : List (Int × Int)) : Bool :=
  match l with
  | [] => true
  | p :: _ => (reachIter l l.length [p]).length == l.length

/-- No `2 × 2` block of cells is fully contained in the list. -/
def no2x2B (l : List (Int × Int)) : Bool :=
  l.all (fun p =>
    !(l.contains (p.1, p.2 + 1) && l.contains (p.1 + 1, p.2) &&
      l.contains (p.1 + 1, p.2 + 1)))

/-- Adjacent entries are non-increasing. -/
def nonIncrB : List Nat → Bool
  | [] => true
  | [_] => true
  | a :: b :: rest => decide (b ≤ a) && nonIncrB (b :: rest)

/-- The list is a (canonical) partition: non-increasing and positive. -/
def isPartitionB (l : List Nat) : Bool :=
  nonIncrB l && l.all (fun x => decide (0 < x))

/-- `mu` fits inside `lam` row by row. -/
def subDiagramB (mu lam : List Nat) : Bool :=
  decide (mu.length ≤ lam.length) &&
    (List.range mu.length).all (fun i => decide (mu.getD i 0 ≤ lam.getD i 0))

/-- Modelled from the spec: `mu` witnesses a removable rim hook of length `len`
of the diagram `lam` — removing the skew cells `lam / mu` (a connected strip
with no `2 × 2` block, hence lying along the outer border) leaves the valid
smaller Young diagram `mu`. -/
def specRimHookB (lam mu : List Nat) (len : Nat) : Bool :=
  isPartitionB lam && isPartitionB mu && subDiagramB mu lam &&
    (let skew := (cellsList lam).filter (fun p => !inCellsB mu p)
     decide (skew.length = len) && connectedB skew && no2x2B skew)

/-! ## Claim C1 — `rim_hooks` omits admissible rim hooks (code bug)

The shape `(2,1)` admits exactly one rim hook of length 3: the whole diagram
(removal leaves the empty diagram; the Murnaghan–Nakayama rule then gives the
character value `-1` on a 3-cycle).  The source's DFS starts at an outer
corner and extends only upwards or leftwards along border cells, so it can
never trace this bent strip, and returns no hook at all. -/

/-- C1: the empty partition witnesses an admissible (spec-sense) rim hook of
length 3 of the shape `[2,1]`, yet `rim_hooks [2,1] 3` returns nothing: an
admissible hook is omitted. -/
theorem c1_rim_hooks_omits_admissible_hook :
    specRimHookB [2, 1] [] 3 = true ∧ rim_hooks [2, 1] 3 = [] := by
  exact ⟨by decide, by decide⟩

/-! ## Claim C2 — the `S_3` scenario (code bug)

The spec's concrete scenario demands `character_S [2,1] [3] = -1` (the
standard `S_3` character table).  Because `rim_hooks` misses the length-3 hook
of `(2,1)` (claim C1), the code returns `0` instead.  `character_M` does
return the specified value `0`. -/

/-- C2: on partition `[2,1]` and cycle counts `[0,0,1]` (one 3-cycle) the code
returns `character_M = 0` as specified, but `character_S = 0`, not the
specified `-1`. -/
theorem c2_s3_three_cycle_values :
    parse_cycle_type [0, 0, 1] = [3] ∧ character_M [2, 1] [3] = 0 ∧
      character_S [2, 1] [3] = 0 := by
  exact ⟨by decide, by decide, by decide⟩

/-! ## Claim C3 — what `main` actually validates (corrected)

`main` checks `len(cycle_counts) != sum(partition)`, i.e. that the count
vector has exactly `n` slots.  It does not compare `sum(partition)` with the
sum of the expanded cycle lengths: for partition `[2]` and counts `[0,0]`
(which expand to no cycles at all, total `0 ≠ 2`) the validation passes and
the pair `(0, 1)` is returned. -/

/-- C3 counterexample: the totals differ (`0 ≠ 2`) yet no validation error is
raised and an integer pair is produced. -/
theorem c3_mismatched_totals_pass_validation :
    (parse_cycle_type [0, 0]).sum ≠ [2].sum ∧
      run_main [2] [0, 0] = Except.ok (0, 1) := by
  exact ⟨by decide, rfl⟩

/-- C3 amended: the validation performed before any computation compares the
*length* of the cycle-count vector with `sum(partition)`; exactly on that
mismatch the call fails without producing a pair, and otherwise a complete
pair is produced. -/
theorem c3_validation_is_count_vector_length (partition cycle_counts : List Nat) :
    (cycle_counts.length ≠ partition.sum →
      run_main partition cycle_counts =
        Except.error "Cycle counts and partition length are not valid.") ∧
    (cycle_counts.length = partition.sum →
      run_main partition cycle_counts =
        Except.ok (character_M partition (parse_cycle_type cycle_counts),
                   character_S partition (parse_cycle_type cycle_counts))) := by
  constructor <;> intro h <;> simp [run_main, h]

/-- Witness for C3's amended theorem at concrete inputs. -/
theorem c3_validation_is_count_vector_length_w :
    run_main [1] [] = Except.error "Cycle counts and partition length are not valid." ∧
      run_main [2] [0, 1] = Except.ok (1, 1) := by
  constructor
  · exact (c3_validation_is_count_vector_length [1] []).1 (by decide)
  · exact ((c3_validation_is_count_vector_length [2] [0, 1]).2 (by decide)).trans rfl

/-! ## Claim C5 — order invariance fails for `character_S` (code bug)

Murnaghan–Nakayama character values are invariant under permutation of the
cycle lengths, and the spec asserts both outputs are.  Because `rim_hooks`
misses bent hooks (claim C1), the code's `character_S` is *not* invariant:
on partition `[3,1]`, processing the cycle lengths as `[3,1]` yields `0`
(no length-3 hook is found in `(3,1)`), while the permuted order `[1,3]`
yields `1` (after removing a corner cell the remaining length-3 row hook of
`(3)` is found, and the `-1` contribution through `(2,1)` is missed). -/

/-- C5: permuting the cycle-length list changes the value of `character_S`:
`[3,1]` and `[1,3]` are permutations of each other, yet the code returns `0`
for one order and `1` for the other (`character_M` agrees on both orders
here). -/
theorem c5_character_S_not_order_invariant :
    [1, 3].Perm [3, 1] ∧ character_S [3, 1] [3, 1] = 0 ∧
      character_S [3, 1] [1, 3] = 1 ∧
      character_M [3, 1] [3, 1] = character_M [3, 1] [1, 3] := by
  exact ⟨by decide, by decide, by decide, by decide⟩

/-! ## Claim C8 — `character_M` is total and nonnegative (confirmed)

Totality is witnessed by the embedding itself: `backtrack` is accepted by Lean
as a terminating recursion (structural on the cycle list, exactly the source's
recursion on the cycle index).  Nonnegativity: every base case contributes `0`
or `1` and every branch sums nonnegative values. -/

/-- The inner recursion of `character_M` never returns a negative value. -/
theorem backtrack_nonneg (cycle_lengths : List Nat) :
    ∀ remaining : List Nat, 0 ≤ backtrack cycle_lengths remaining := by
  induction cycle_lengths with
  | nil =>
      intro remaining
      unfold backtrack
      split <;> norm_num
  | cons c rest ih =>
      intro remaining
      unfold backtrack
      apply List.sum_nonneg
      intro x hx
      simp only [List.mem_map, List.mem_range] at hx
      obtain ⟨i, _, rfl⟩ := hx
      split
      · exact ih _
      · exact le_refl 0

/-- C8: for every partition and every cycle-length list, `character_M`
terminates (it is a total function of this development) and returns a
nonnegative integer. -/
theorem c8_character_M_nonneg (partition cycle_lengths : List Nat) :
    0 ≤ character_M partition cycle_lengths :=
  backtrack_nonneg cycle_lengths partition

/-! ## Claim C10 — the core functions do not detect total mismatches
(confirmed)

`mn` returns `1` as soon as the cycle list is empty, whatever shape remains,
and `backtrack` with no cycles left returns `0` whenever some capacity is
still positive: neither core function validates the totals. -/

/-- C10: `character_S` on an empty cycle list returns `1` for every shape
(also non-empty ones), and `character_M` on an empty cycle list returns `0`
for every partition with at least one cell; no error is raised. -/
theorem c10_core_accepts_mismatch (shape partition : List Nat)
    (h : 0 < partition.sum) :
    character_S shape [] = 1 ∧ character_M partition [] = 0 := by
  constructor
  · rfl
  · unfold character_M backtrack
    split
    · next hall =>
        exfalso
        rw [List.all_eq_true] at hall
        have hz : partition.sum = 0 := by
          apply List.sum_eq_zero
          intro x hx
          simpa using hall x hx
        omega
    · rfl

/-- Witness for C10 at concrete inputs. -/
theorem c10_core_accepts_mismatch_w :
    0 < List.sum [2, 1] ∧ character_S [3, 2] [] = 1 ∧ character_M [2, 1] [] = 0 :=
  ⟨by decide, (c10_core_accepts_mismatch [3, 2] [2, 1] (by decide)).1,
    (c10_core_accepts_mismatch [3, 2] [2, 1] (by decide)).2⟩

/-! ## Equation lemmas for the embedded recursions -/

lemma backtrack_nil (remaining : List Nat) :
    backtrack [] remaining = if remaining.all (fun r => r == 0) then 1 else 0 := rfl

lemma backtrack_cons (c : Nat) (rest remaining : List Nat) :
    backtrack (c :: rest) remaining =
      ((List.range remaining.length).map (fun i =>
        if c ≤ remaining.getD i 0 then
          backtrack rest (remaining.set i (remaining.getD i 0 - c))
        else 0)).sum := rfl

lemma mn_nil (shape : List Nat) : mn shape [] = 1 := rfl

lemma mn_cons (shape : List Nat) (c : Nat) (rest : List Nat) :
    mn shape (c :: rest) =
      ((rim_hooks shape c).map (fun nh => (-1 : Int) ^ nh.2 * mn nh.1 rest)).sum := rfl

/-- Unfolding of `dfs` when the path has reached the hook length. -/
lemma dfs_base (shape : List Nat) (L f : Nat) (path visited : List (Int × Int))
    (h : path.length = L) :
    dfs shape L f path visited = mkHook shape L path := by
  rw [dfs.eq_def, if_pos h]

/-- Unfolding of `dfs` with exhausted fuel and an incomplete path. -/
lemma dfs_zero (shape : List Nat) (L : Nat) (path visited : List (Int × Int))
    (h : path.length ≠ L) :
    dfs shape L 0 path visited = [] := by
  rw [dfs.eq_def, if_neg h]
  cases path <;> rfl

/-- Unfolding of one extension step of `dfs`. -/
lemma dfs_succ (shape : List Nat) (L f : Nat) (last : Int × Int)
    (rest visited : List (Int × Int)) (h : (last :: rest).length ≠ L) :
    dfs shape L (f + 1) (last :: rest) visited =
      [((-1 : Int), (0 : Int)), ((0 : Int), (-1 : Int))].flatMap (fun d =>
        if inCellsB shape (last.1 + d.1, last.2 + d.2) &&
            !visited.contains (last.1 + d.1, last.2 + d.2) &&
            borderB shape (last.1 + d.1, last.2 + d.2)
        then dfs shape L f ((last.1 + d.1, last.2 + d.2) :: last :: rest)
               ((last.1 + d.1, last.2 + d.2) :: visited)
        else []) := by
  rw [dfs.eq_def, if_neg h]

/-! ## List utilities -/

lemma length_le_sum_of_pos (l : List Nat) (h : ∀ x ∈ l, 0 < x) :
    l.length ≤ l.sum := by
  induction l with
  | nil => simp
  | cons a l ih =>
      simp only [List.length_cons, List.sum_cons]
      have ha := h a (by simp)
      have hl := ih (fun x hx => h x (by simp [hx]))
      omega

lemma eq_nil_of_pos_sum_zero (l : List Nat) (h : ∀ x ∈ l, 0 < x)
    (hs : l.sum = 0) : l = [] := by
  cases l with
  | nil => rfl
  | cons a l =>
      exfalso
      have ha := h a (by simp)
      rw [List.sum_cons] at hs
      omega

lemma filter_range_last (m : Nat) (hm : 0 < m) (p : Nat → Bool)
    (hp : ∀ c, c < m → (p c = true ↔ m ≤ c + 1)) :
    (List.range m).filter p = [m - 1] := by
  obtain ⟨k, rfl⟩ : ∃ k, m = k + 1 := ⟨m - 1, by omega⟩
  rw [List.range_succ, List.filter_append]
  have h1 : (List.range k).filter p = [] := by
    rw [List.filter_eq_nil_iff]
    intro a ha
    rw [List.mem_range] at ha
    intro hpa
    have := (hp a (by omega)).1 hpa
    omega
  have h2 : List.filter p [k] = [k] := by
    have hk := (hp k (by omega)).2 (by omega)
    simp [hk]
  rw [h1, h2]
  simp

lemma filter_range_front (m k : Nat) (hk : k ≤ m) (p : Nat → Bool)
    (hp : ∀ c, c < m → (p c = true ↔ c < k)) :
    (List.range m).filter p = List.range k := by
  obtain ⟨d, rfl⟩ : ∃ d, m = k + d := ⟨m - k, by omega⟩
  rw [List.range_add, List.filter_append]
  have h1 : (List.range k).filter p = List.range k := by
    rw [List.filter_eq_self]
    intro a ha
    rw [List.mem_range] at ha
    exact (hp a (by omega)).2 (by omega)
  have h2 : ((List.range d).map (fun x => k + x)).filter p = [] := by
    rw [List.filter_eq_nil_iff]
    intro a ha
    simp only [List.mem_map, List.mem_range] at ha
    obtain ⟨x, hx, rfl⟩ := ha
    intro hpa
    have := (hp (k + x) (by omega)).1 hpa
    omega
  rw [h1, h2, List.append_nil]

lemma dedup_replicate_pos (c : Nat) (hc : 0 < c) (a : Int) :
    (List.replicate c a).dedup = [a] := by
  induction c with
  | zero => omega
  | succ n ih =>
      rcases Nat.eq_zero_or_pos n with h | h
      · subst h; simp
      · rw [List.replicate_succ,
          List.dedup_cons_of_mem (by simp [List.mem_replicate]; omega), ih h]

/-! ## `rim_hooks` on a single-row shape -/

/-- Membership in the single-row diagram `[m]`. -/
lemma inCellsB_single_iff (m : Nat) (r c : Int) :
    inCellsB [m] (r, c) = true ↔ r = 0 ∧ 0 ≤ c ∧ c < (m : Int) := by
  simp only [inCellsB, Bool.and_eq_true, decide_eq_true_eq]
  constructor
  · rintro ⟨⟨⟨h1, h2⟩, h3⟩, h4⟩
    simp only [List.length_cons, List.length_nil] at h3
    have hr : r = 0 := by omega
    subst hr
    simp only [Int.toNat_zero, List.getD_cons_zero] at h4
    exact ⟨rfl, h2, h4⟩
  · rintro ⟨rfl, h2, h3⟩
    refine ⟨⟨⟨le_refl 0, h2⟩, by simp⟩, ?_⟩
    simp only [Int.toNat_zero, List.getD_cons_zero]
    exact h3

lemma cellsList_single (m : Nat) :
    cellsList [m] = (List.range m).map (fun c : Nat => ((0 : Int), (c : Int))) := by
  unfold cellsList
  rw [show ([m] : List Nat).length = 1 from rfl, show List.range 1 = [0] from rfl,
    List.flatMap_singleton]
  rfl

lemma corners_single (m : Nat) (hm : 0 < m) :
    corners [m] = [((0 : Int), ((m - 1 : Nat) : Int))] := by
  unfold corners
  rw [cellsList_single, List.filter_map]
  rw [filter_range_last m hm _ ?hp]
  · rfl
  case hp =>
    intro c hc
    simp only [Function.comp_apply, Bool.and_eq_true, Bool.not_eq_true']
    constructor
    · rintro ⟨h1, -⟩
      rw [Bool.eq_false_iff] at h1
      by_contra hcon
      exact h1 ((inCellsB_single_iff m 0 ((c : Int) + 1)).2 ⟨rfl, by omega, by omega⟩)
    · intro h
      constructor
      · rw [Bool.eq_false_iff]
        intro hcon
        obtain ⟨-, -, h3⟩ := (inCellsB_single_iff m 0 ((c : Int) + 1)).1 hcon
        omega
      · rw [Bool.eq_false_iff]
        intro hcon
        obtain ⟨h1, -, -⟩ := (inCellsB_single_iff m ((0 : Int) + 1) (c : Int)).1 hcon
        omega

lemma filter_range_front_len (m k : Nat) (hk : k ≤ m) (p : Nat → Bool)
    (hp : ∀ c, c < m → (p c = true ↔ c < k)) :
    ((List.range m).filter p).length = k := by
  rw [filter_range_front m k hk p hp, List.length_range]

lemma rowPath_length (m t : Nat) : (rowPath m t).length = t := by
  simp [rowPath]

lemma rowPath_one (m : Nat) : rowPath m 1 = [((0 : Int), ((m - 1 : Nat) : Int))] := by
  unfold rowPath
  rw [show List.range 1 = [0] from rfl, List.map_cons, List.map_nil]
  norm_num

lemma rowPath_succ (m t : Nat) (h : t < m) :
    rowPath m (t + 1) = ((0 : Int), ((m - (t + 1) : Nat) : Int)) :: rowPath m t := by
  unfold rowPath
  rw [List.range_succ_eq_map, List.map_cons, List.map_map]
  refine congrArg₂ _ (by norm_num) ?_
  apply List.map_congr_left
  intro i _
  have hi : m - (t + 1) + Nat.succ i = m - t + i := by omega
  simp [Function.comp, hi]

lemma mem_rowPath (m t j : Nat) :
    (((0 : Int), (j : Int)) ∈ rowPath m t) ↔ ∃ i, i < t ∧ m - t + i = j := by
  simp only [rowPath, List.mem_map, List.mem_range, Prod.mk.injEq, true_and]
  constructor
  · rintro ⟨i, hi, hij⟩
    exact ⟨i, hi, by exact_mod_cast hij⟩
  · rintro ⟨i, hi, hij⟩
    exact ⟨i, hi, by exact_mod_cast hij⟩

lemma rowPath_map_fst (m c : Nat) :
    (rowPath m c).map Prod.fst = List.replicate c 0 := by
  simp only [rowPath, List.map_map]
  have : ((fun p : Int × Int => p.1) ∘ fun i : Nat => ((0 : Int), ((m - c + i : Nat) : Int)))
      = fun _ : Nat => (0 : Int) := rfl
  rw [this]
  simp [List.map_const']

lemma newRowCounts_row (m c : Nat) (hcm : c ≤ m) :
    newRowCounts [m] (rowPath m c) = [m - c] := by
  unfold newRowCounts
  rw [cellsList_single, show ([m] : List Nat).length = 1 from rfl,
    show List.range 1 = [0] from rfl, List.map_cons, List.map_nil]
  rw [List.filter_map, List.length_map]
  refine congrArg (fun x => [x]) ?_
  apply filter_range_front_len m (m - c) (by omega)
  intro j hj
  simp only [Function.comp_apply, Bool.and_eq_true, Bool.not_eq_true']
  constructor
  · rintro ⟨h1, -⟩
    rw [Bool.eq_false_iff] at h1
    by_contra hcon
    apply h1
    have hmem : (((0 : Int), (j : Int)) ∈ rowPath m c) :=
      (mem_rowPath m c j).2 ⟨j - (m - c), by omega, by omega⟩
    simpa using hmem
  · intro h
    constructor
    · rw [Bool.eq_false_iff]
      intro hcon
      have hmem : (((0 : Int), (j : Int)) ∈ rowPath m c) := by
        simpa using hcon
      obtain ⟨i, hi, hij⟩ := (mem_rowPath m c j).1 hmem
      omega
    · simp

lemma mkHook_row (m c : Nat) (hc0 : 0 < c) (hcm : c ≤ m) :
    mkHook [m] c (rowPath m c) = [((if m - c = 0 then [] else [m - c]), 0)] := by
  unfold mkHook newShapeOf
  rw [newRowCounts_row m c hcm]
  have hheight : ((rowPath m c).map Prod.fst).dedup.length - 1 = 0 := by
    rw [rowPath_map_fst, dedup_replicate_pos c hc0]
    rfl
  by_cases h : m - c = 0
  · rw [h]
    have hfil : List.filter (fun l => decide (0 < l)) [0] = [] := rfl
    rw [hfil]
    have hcond : ((([] : List Nat).sum : Int) = (([m] : List Nat).sum : Int) - (c : Int)) := by
      simp only [List.sum_nil, List.sum_cons, Nat.cast_zero]
      omega
    rw [if_pos hcond, hheight]
    simp
  · have hfil : List.filter (fun l => decide (0 < l)) [m - c] = [m - c] := by
      simp only [List.filter_cons, List.filter_nil, decide_eq_true_eq]
      rw [if_pos (by omega)]
    rw [hfil]
    have hcond : ((([m - c] : List Nat).sum : Int) = (([m] : List Nat).sum : Int) - (c : Int)) := by
      simp only [List.sum_cons, List.sum_nil]
      omega
    rw [if_pos hcond, hheight]
    have hsort : List.insertionSort (· ≥ ·) [m - c] = [m - c] := rfl
    rw [hsort, if_neg h]

lemma dfs_row (m c : Nat) (hc0 : 0 < c) (hcm : c ≤ m) :
    ∀ f t, 0 < t → t ≤ c → c ≤ t + f →
      dfs [m] c f (rowPath m t) (rowPath m t) =
        [((if m - c = 0 then [] else [m - c]), 0)] := by
  intro f
  induction f with
  | zero =>
      intro t ht htc hctf
      have : t = c := by omega
      subst this
      rw [dfs_base [m] t 0 _ _ (rowPath_length m t)]
      exact mkHook_row m t hc0 hcm
  | succ f ih =>
      intro t ht htc hctf
      by_cases hteq : t = c
      · subst hteq
        rw [dfs_base [m] t (f + 1) _ _ (rowPath_length m t)]
        exact mkHook_row m t hc0 hcm
      · have htlt : t < c := by omega
        have htm : t < m := by omega
        obtain ⟨t0, rfl⟩ : ∃ t0, t = t0 + 1 := ⟨t - 1, by omega⟩
        have hsplit := rowPath_succ m t0 (by omega)
        rw [hsplit, dfs_succ [m] c f _ _ _ (by rw [← hsplit, rowPath_length]; omega)]
        simp only [List.flatMap_cons, List.flatMap_nil, List.append_nil]
        -- the upward move leaves the diagram
        have hup : inCellsB [m] (((0 : Int) + -1), (((m - (t0 + 1) : Nat) : Int) + 0)) = false := by
          rw [Bool.eq_false_iff]
          intro hcon
          obtain ⟨h1, -, -⟩ := (inCellsB_single_iff m _ _).1 hcon
          omega
        rw [hup]
        simp only [Bool.false_and, Bool.false_eq_true, if_false, List.nil_append]
        -- the leftward move stays on the row
        have hco : ((m - (t0 + 1) : Nat) : Int) + -1 = ((m - (t0 + 2) : Nat) : Int) := by
          omega
        rw [hco]
        have hin : inCellsB [m] ((0 : Int) + 0, ((m - (t0 + 2) : Nat) : Int)) = true :=
          (inCellsB_single_iff m _ _).2 ⟨by norm_num, by omega, by omega⟩
        have hnv : ((((0 : Int), ((m - (t0 + 1) : Nat) : Int)) :: rowPath m t0).contains
            ((0 : Int) + 0, ((m - (t0 + 2) : Nat) : Int))) = false := by
          rw [← hsplit, Bool.eq_false_iff]
          intro hcon
          have hmem : (((0 : Int) + 0, ((m - (t0 + 2) : Nat) : Int)) ∈ rowPath m (t0 + 1)) := by
            simpa using hcon
          rw [show ((0 : Int) + 0) = (0 : Int) from by norm_num] at hmem
          obtain ⟨i, hi, hij⟩ := (mem_rowPath m (t0 + 1) (m - (t0 + 2))).1 hmem
          omega
        have hbd : borderB [m] ((0 : Int) + 0, ((m - (t0 + 2) : Nat) : Int)) = true := by
          simp only [borderB, Bool.or_eq_true, Bool.not_eq_true']
          right
          rw [Bool.eq_false_iff]
          intro hcon
          obtain ⟨h1, -, -⟩ := (inCellsB_single_iff m _ _).1 hcon
          omega
        rw [hin, hnv, hbd]
        simp only [Bool.not_false, Bool.and_true, Bool.true_and, eq_self_iff_true, if_true]
        rw [show ((0 : Int) + 0) = (0 : Int) from by norm_num, ← hsplit]
        have hext : (((0 : Int), ((m - (t0 + 2) : Nat) : Int)) :: rowPath m (t0 + 1))
            = rowPath m (t0 + 2) := by
          rw [rowPath_succ m (t0 + 1) htm]
        rw [hext]
        exact ih (t0 + 2) (by omega) (by omega) (by omega)

lemma rim_hooks_row (m c : Nat) (hc0 : 0 < c) (hcm : c ≤ m) :
    rim_hooks [m] c = [((if m - c = 0 then [] else [m - c]), 0)] := by
  unfold rim_hooks
  rw [corners_single m (by omega), List.flatMap_singleton, ← rowPath_one]
  exact dfs_row m c hc0 hcm c 1 one_pos hc0 (by omega)

/-! ## Claim C6 — single-row partition (confirmed) -/

lemma backtrack_row (ls : List Nat) :
    ∀ m, ls.sum = m → backtrack ls [m] = 1 := by
  induction ls with
  | nil =>
      intro m hs
      simp only [List.sum_nil] at hs
      subst hs
      rfl
  | cons c rest ih =>
      intro m hs
      rw [List.sum_cons] at hs
      have hcm : c ≤ m := by omega
      rw [backtrack_cons]
      rw [show List.range (([m] : List Nat).length) = [0] from rfl,
        List.map_cons, List.map_nil]
      rw [List.getD_cons_zero, if_pos hcm]
      have hset : ([m] : List Nat).set 0 (m - c) = [m - c] := rfl
      rw [hset, ih (m - c) (by omega)]
      norm_num

lemma mn_row (ls : List Nat) :
    ∀ m, 0 < m → (∀ x ∈ ls, 0 < x) → ls.sum = m → mn [m] ls = 1 := by
  induction ls with
  | nil =>
      intro m hm _ hs
      simp only [List.sum_nil] at hs
      omega
  | cons c rest ih =>
      intro m hm hpos hs
      have hc : 0 < c := hpos c (by simp)
      rw [List.sum_cons] at hs
      have hcm : c ≤ m := by omega
      rw [mn_cons, rim_hooks_row m c hc hcm]
      by_cases hmc : m - c = 0
      · have hrest : rest = [] :=
          eq_nil_of_pos_sum_zero rest (fun x hx => hpos x (by simp [hx])) (by omega)
        subst hrest
        simp [hmc, mn_nil]
      · simp only [if_neg hmc, List.map_cons, List.map_nil, List.sum_cons, List.sum_nil]
        rw [ih (m - c) (by omega) (fun x hx => hpos x (by simp [hx])) (by omega)]
        norm_num

/-- C6: for the single-row partition `[n]` and every positive cycle-length
list summing to `n`, both characters equal `1`. -/
theorem c6_single_row_characters (n : Nat) (ls : List Nat)
    (hpos : ∀ c ∈ ls, 0 < c) (hsum : ls.sum = n) :
    character_M [n] ls = 1 ∧ character_S [n] ls = 1 := by
  constructor
  · exact backtrack_row ls n hsum
  · rcases Nat.eq_zero_or_pos n with hn | hn
    · subst hn
      have : ls = [] := eq_nil_of_pos_sum_zero ls hpos hsum
      subst this
      rfl
    · exact mn_row ls n hn hpos hsum

/-- Witness for C6 at `n = 3`, cycle lengths `[1, 2]`. -/
theorem c6_single_row_characters_w :
    (∀ c ∈ [1, 2], 0 < c) ∧ List.sum [1, 2] = 3 ∧
      character_M [3] [1, 2] = 1 ∧ character_S [3] [1, 2] = 1 :=
  ⟨by decide, by decide, (c6_single_row_characters 3 [1, 2] (by decide) (by decide)).1,
    (c6_single_row_characters 3 [1, 2] (by decide) (by decide)).2⟩

/-! ## `rim_hooks` on a single-column shape -/

lemma flatMap_eq_map_of_singleton (l : List Nat) (g : Nat → Int × Int) :
    l.flatMap (fun a => [g a]) = l.map g := by
  induction l with
  | nil => rfl
  | cons a l ih => rw [List.flatMap_cons, List.map_cons, ih]; rfl

lemma getD_replicate_one (m r : Nat) (h : r < m) :
    (List.replicate m 1).getD r 0 = 1 := by
  rw [List.getD_eq_getElem _ _ (by simp [h]), List.getElem_replicate]

/-- Membership in the single-column diagram `[1,1,…,1]` (`m` rows). -/
lemma inCellsB_replicate_iff (m : Nat) (r c : Int) :
    inCellsB (List.replicate m 1) (r, c) = true ↔ 0 ≤ r ∧ r < (m : Int) ∧ c = 0 := by
  simp only [inCellsB, Bool.and_eq_true, decide_eq_true_eq]
  constructor
  · rintro ⟨⟨⟨h1, h2⟩, h3⟩, h4⟩
    rw [List.length_replicate] at h3
    have hr : r.toNat < m := by omega
    rw [getD_replicate_one m r.toNat hr] at h4
    exact ⟨h1, h3, by omega⟩
  · rintro ⟨h1, h3, rfl⟩
    refine ⟨⟨⟨h1, le_refl 0⟩, by rw [List.length_replicate]; exact h3⟩, ?_⟩
    rw [getD_replicate_one m r.toNat (by omega)]
    norm_num

lemma cellsList_replicate (m : Nat) :
    cellsList (List.replicate m 1)
      = (List.range m).map (fun r : Nat => ((r : Int), (0 : Int))) := by
  unfold cellsList
  rw [List.length_replicate]
  have h1 : ∀ r ∈ List.range m,
      (List.range ((List.replicate m 1).getD r 0)).map
          (fun c : Nat => ((r : Int), (c : Int)))
        = [((r : Int), (0 : Int))] := by
    intro r hr
    rw [List.mem_range] at hr
    rw [getD_replicate_one m r hr]
    rfl
  rw [List.flatMap_congr h1, flatMap_eq_map_of_singleton]

lemma corners_replicate (m : Nat) (hm : 0 < m) :
    corners (List.replicate m 1) = [(((m - 1 : Nat) : Int), (0 : Int))] := by
  unfold corners
  rw [cellsList_replicate, List.filter_map]
  rw [filter_range_last m hm _ ?hp]
  · rfl
  case hp =>
    intro r hr
    simp only [Function.comp_apply, Bool.and_eq_true, Bool.not_eq_true']
    constructor
    · rintro ⟨-, h2⟩
      rw [Bool.eq_false_iff] at h2
      by_contra hcon
      exact h2 ((inCellsB_replicate_iff m ((r : Int) + 1) 0).2 ⟨by omega, by omega, rfl⟩)
    · intro h
      constructor
      · rw [Bool.eq_false_iff]
        intro hcon
        obtain ⟨-, -, h3⟩ := (inCellsB_replicate_iff m (r : Int) ((0 : Int) + 1)).1 hcon
        omega
      · rw [Bool.eq_false_iff]
        intro hcon
        obtain ⟨-, h2, -⟩ := (inCellsB_replicate_iff m ((r : Int) + 1) (0 : Int)).1 hcon
        omega

lemma colPath_length (m t : Nat) : (colPath m t).length = t := by
  simp [colPath]

lemma colPath_one (m : Nat) : colPath m 1 = [(((m - 1 : Nat) : Int), (0 : Int))] := by
  unfold colPath
  rw [show List.range 1 = [0] from rfl, List.map_cons, List.map_nil]
  norm_num

lemma colPath_succ (m t : Nat) (h : t < m) :
    colPath m (t + 1) = (((m - (t + 1) : Nat) : Int), (0 : Int)) :: colPath m t := by
  unfold colPath
  rw [List.range_succ_eq_map, List.map_cons, List.map_map]
  refine congrArg₂ _ (by norm_num) ?_
  apply List.map_congr_left
  intro i _
  have hi : m - (t + 1) + Nat.succ i = m - t + i := by omega
  simp [Function.comp, hi]

lemma mem_colPath (m t j : Nat) :
    (((j : Int), (0 : Int)) ∈ colPath m t) ↔ ∃ i, i < t ∧ m - t + i = j := by
  simp only [colPath, List.mem_map, List.mem_range, Prod.mk.injEq, and_true]
  constructor
  · rintro ⟨i, hi, hij⟩
    exact ⟨i, hi, by exact_mod_cast hij⟩
  · rintro ⟨i, hi, hij⟩
    exact ⟨i, hi, by exact_mod_cast hij⟩

lemma filter_range_point (m r : Nat) (hr : r < m) (p : Nat → Bool)
    (hp : ∀ j, j < m → (p j = true ↔ j = r)) :
    (List.range m).filter p = [r] := by
  have hsplit : m = r + 1 + (m - r - 1) := by omega
  rw [hsplit, List.range_add, List.filter_append, List.range_succ,
    List.filter_append]
  have h1 : (List.range r).filter p = [] := by
    rw [List.filter_eq_nil_iff]
    intro a ha
    rw [List.mem_range] at ha
    intro hpa
    have := (hp a (by omega)).1 hpa
    omega
  have h2 : List.filter p [r] = [r] := by
    have := (hp r (by omega)).2 rfl
    simp [this]
  have h3 : ((List.range (m - r - 1)).map (fun x => r + 1 + x)).filter p = [] := by
    rw [List.filter_eq_nil_iff]
    intro a ha
    simp only [List.mem_map, List.mem_range] at ha
    obtain ⟨x, hx, rfl⟩ := ha
    intro hpa
    have := (hp (r + 1 + x) (by omega)).1 hpa
    omega
  rw [h1, h2, h3]
  rfl

lemma map_if_lt_eq_append (m k : Nat) (hk : k ≤ m) :
    (List.range m).map (fun r : Nat => if r < k then 1 else 0)
      = List.replicate k 1 ++ List.replicate (m - k) 0 := by
  obtain ⟨d, rfl⟩ : ∃ d, m = k + d := ⟨m - k, by omega⟩
  rw [show k + d - k = d from by omega, List.range_add, List.map_append, List.map_map]
  refine congrArg₂ _ ?_ ?_
  · rw [List.eq_replicate_iff]
    refine ⟨by simp, ?_⟩
    intro b hb
    simp only [List.mem_map, List.mem_range] at hb
    obtain ⟨r, hr, rfl⟩ := hb
    rw [if_pos hr]
  · rw [List.eq_replicate_iff]
    refine ⟨by simp, ?_⟩
    intro b hb
    simp only [List.mem_map, List.mem_range, Function.comp_apply] at hb
    obtain ⟨x, hx, rfl⟩ := hb
    rw [if_neg (by omega)]

lemma newRowCounts_col (m c : Nat) (hcm : c ≤ m) :
    newRowCounts (List.replicate m 1) (colPath m c)
      = List.replicate (m - c) 1 ++ List.replicate c 0 := by
  unfold newRowCounts
  rw [cellsList_replicate, List.length_replicate]
  have hpt : ∀ r ∈ List.range m,
      ((((List.range m).map (fun r' : Nat => ((r' : Int), (0 : Int)))).filter
        (fun p => !(colPath m c).contains p && p.1 == (r : Int))).length)
      = if r < m - c then 1 else 0 := by
    intro r hr
    rw [List.mem_range] at hr
    rw [List.filter_map, List.length_map]
    by_cases hrk : r < m - c
    · rw [if_pos hrk]
      rw [filter_range_point m r (by omega) _ (fun j hj => ?_)]
      · rfl
      · simp only [Function.comp_apply, Bool.and_eq_true, Bool.not_eq_true',
          beq_iff_eq, Nat.cast_inj]
        constructor
        · rintro ⟨-, hj⟩
          exact hj
        · intro hj
          refine ⟨?_, hj⟩
          rw [Bool.eq_false_iff]
          intro hcon
          have hmem : (((j : Int), (0 : Int)) ∈ colPath m c) := by simpa using hcon
          obtain ⟨i, hi, hij⟩ := (mem_colPath m c j).1 hmem
          omega
    · rw [if_neg hrk]
      have hnil : (List.range m).filter
          ((fun p : Int × Int => !(colPath m c).contains p && p.1 == (r : Int))
            ∘ (fun r' : Nat => ((r' : Int), (0 : Int)))) = [] := by
        rw [List.filter_eq_nil_iff]
        intro j hj
        rw [List.mem_range] at hj
        simp only [Function.comp_apply, Bool.and_eq_true, Bool.not_eq_true',
          beq_iff_eq, Nat.cast_inj]
        rintro ⟨h1, hjr⟩
        rw [Bool.eq_false_iff] at h1
        apply h1
        have hmem : (((j : Int), (0 : Int)) ∈ colPath m c) :=
          (mem_colPath m c j).2 ⟨j - (m - c), by omega, by omega⟩
        simpa using hmem
      rw [hnil]
      rfl
  rw [List.map_congr_left hpt, map_if_lt_eq_append m (m - c) (by omega),
    show m - (m - c) = c from by omega]

lemma colPath_map_fst (m c : Nat) :
    (colPath m c).map Prod.fst
      = (List.range c).map (fun i : Nat => ((m - c + i : Nat) : Int)) := by
  simp only [colPath, List.map_map]
  rfl

lemma mkHook_col (m c : Nat) (hc0 : 0 < c) (hcm : c ≤ m) :
    mkHook (List.replicate m 1) c (colPath m c)
      = [(List.replicate (m - c) 1, c - 1)] := by
  unfold mkHook newShapeOf
  rw [newRowCounts_col m c hcm, List.filter_append]
  have hf1 : (List.replicate (m - c) 1).filter (fun l => decide (0 < l))
      = List.replicate (m - c) 1 := by
    rw [List.filter_replicate, if_pos (by norm_num)]
  have hf0 : (List.replicate c 0).filter (fun l => decide (0 < l)) = [] := by
    rw [List.filter_replicate, if_neg (by norm_num)]
  rw [hf1, hf0, List.append_nil]
  have hcond : ((((List.replicate (m - c) (1 : Nat)).sum : Nat) : Int)
      = (((List.replicate m (1 : Nat)).sum : Nat) : Int) - (c : Int)) := by
    have h1 : (List.replicate (m - c) (1 : Nat)).sum = m - c := by simp
    have h2 : (List.replicate m (1 : Nat)).sum = m := by simp
    rw [h1, h2]
    omega
  rw [if_pos hcond]
  have hsort : (List.replicate (m - c) 1).insertionSort (· ≥ ·)
      = List.replicate (m - c) 1 :=
    List.Sorted.insertionSort_eq (List.pairwise_replicate.2 (Or.inr (le_refl 1)))
  rw [hsort]
  have hnodup : ((colPath m c).map Prod.fst).Nodup := by
    rw [colPath_map_fst]
    refine List.Nodup.map ?_ (List.nodup_range c)
    intro a b hab
    simp only [Nat.cast_inj] at hab
    omega
  rw [List.Nodup.dedup hnodup, colPath_map_fst, List.length_map, List.length_range]

lemma dfs_col (m c : Nat) (hc0 : 0 < c) (hcm : c ≤ m) :
    ∀ f t, 0 < t → t ≤ c → c ≤ t + f →
      dfs (List.replicate m 1) c f (colPath m t) (colPath m t) =
        [(List.replicate (m - c) 1, c - 1)] := by
  intro f
  induction f with
  | zero =>
      intro t ht htc hctf
      have : t = c := by omega
      subst this
      rw [dfs_base _ t 0 _ _ (colPath_length m t)]
      exact mkHook_col m t hc0 hcm
  | succ f ih =>
      intro t ht htc hctf
      by_cases hteq : t = c
      · subst hteq
        rw [dfs_base _ t (f + 1) _ _ (colPath_length m t)]
        exact mkHook_col m t hc0 hcm
      · have htlt : t < c := by omega
        have htm : t < m := by omega
        obtain ⟨t0, rfl⟩ : ∃ t0, t = t0 + 1 := ⟨t - 1, by omega⟩
        have hsplit := colPath_succ m t0 (by omega)
        rw [hsplit, dfs_succ _ c f _ _ _ (by rw [← hsplit, colPath_length]; omega)]
        simp only [List.flatMap_cons, List.flatMap_nil, List.append_nil]
        -- the upward move stays in the column
        have hco : ((m - (t0 + 1) : Nat) : Int) + -1 = ((m - (t0 + 2) : Nat) : Int) := by
          omega
        rw [hco]
        have hin : inCellsB (List.replicate m 1)
            (((m - (t0 + 2) : Nat) : Int), (0 : Int) + 0) = true :=
          (inCellsB_replicate_iff m _ _).2 ⟨by omega, by omega, by norm_num⟩
        have hnv : (((((m - (t0 + 1) : Nat) : Int), (0 : Int)) :: colPath m t0).contains
            (((m - (t0 + 2) : Nat) : Int), (0 : Int) + 0)) = false := by
          rw [← hsplit, Bool.eq_false_iff]
          intro hcon
          have hmem : ((((m - (t0 + 2) : Nat) : Int), (0 : Int) + 0) ∈ colPath m (t0 + 1)) := by
            simpa using hcon
          rw [show ((0 : Int) + 0) = (0 : Int) from by norm_num] at hmem
          obtain ⟨i, hi, hij⟩ := (mem_colPath m (t0 + 1) (m - (t0 + 2))).1 hmem
          omega
        have hbd : borderB (List.replicate m 1)
            (((m - (t0 + 2) : Nat) : Int), (0 : Int) + 0) = true := by
          simp only [borderB, Bool.or_eq_true, Bool.not_eq_true']
          left
          rw [Bool.eq_false_iff]
          intro hcon
          obtain ⟨-, -, h3⟩ := (inCellsB_replicate_iff m _ _).1 hcon
          omega
        rw [hin, hnv, hbd]
        simp only [Bool.not_false, Bool.and_true, Bool.true_and, eq_self_iff_true, if_true]
        rw [show ((0 : Int) + 0) = (0 : Int) from by norm_num, ← hsplit]
        have hext : ((((m - (t0 + 2) : Nat) : Int), (0 : Int)) :: colPath m (t0 + 1))
            = colPath m (t0 + 2) := by
          rw [colPath_succ m (t0 + 1) htm]
        rw [hext]
        -- the leftward move leaves the diagram
        have hlf : inCellsB (List.replicate m 1)
            ((((m - (t0 + 1) : Nat) : Int) + 0), ((0 : Int) + -1)) = false := by
          rw [Bool.eq_false_iff]
          intro hcon
          obtain ⟨-, -, h3⟩ := (inCellsB_replicate_iff m _ _).1 hcon
          omega
        rw [hlf]
        simp only [Bool.false_and, Bool.false_eq_true, if_false, List.append_nil]
        exact ih (t0 + 2) (by omega) (by omega) (by omega)

lemma rim_hooks_col (m c : Nat) (hc0 : 0 < c) (hcm : c ≤ m) :
    rim_hooks (List.replicate m 1) c = [(List.replicate (m - c) 1, c - 1)] := by
  unfold rim_hooks
  rw [corners_replicate m (by omega), List.flatMap_singleton, ← colPath_one]
  exact dfs_col m c hc0 hcm c 1 one_pos hc0 (by omega)

/-! ## Claim C7 — column partition gives the sign character (confirmed) -/

lemma mn_col (ls : List Nat) :
    ∀ m, (∀ x ∈ ls, 0 < x) → ls.sum = m →
      mn (List.replicate m 1) ls = (-1 : Int) ^ (m - ls.length) := by
  induction ls with
  | nil =>
      intro m _ hs
      simp only [List.sum_nil] at hs
      subst hs
      rfl
  | cons c rest ih =>
      intro m hpos hs
      have hc : 0 < c := hpos c (by simp)
      rw [List.sum_cons] at hs
      have hcm : c ≤ m := by omega
      rw [mn_cons, rim_hooks_col m c hc hcm]
      rw [List.map_cons, List.map_nil, List.sum_cons, List.sum_nil]
      rw [ih (m - c) (fun x hx => hpos x (by simp [hx])) (by omega)]
      have hrl : rest.length ≤ m - c := by
        have h1 := length_le_sum_of_pos rest (fun x hx => hpos x (by simp [hx]))
        omega
      rw [← pow_add]
      have hexp : c - 1 + (m - c - rest.length) = m - (c :: rest).length := by
        simp only [List.length_cons]
        omega
      rw [hexp, add_zero]

/-- C7: for the column partition `[1,1,…,1]` with `n` rows and every positive
cycle-length list summing to `n`, `character_S` returns the sign
`(-1)^(n - #cycles)` of a permutation of that cycle type. -/
theorem c7_column_partition_sign (n : Nat) (ls : List Nat)
    (hpos : ∀ c ∈ ls, 0 < c) (hsum : ls.sum = n) :
    character_S (List.replicate n 1) ls = (-1 : Int) ^ (n - ls.length) :=
  mn_col ls n hpos hsum

/-- Witness for C7 at `n = 3`, cycle lengths `[1, 2]`. -/
theorem c7_column_partition_sign_w :
    (∀ c ∈ [1, 2], 0 < c) ∧ List.sum [1, 2] = 3 ∧
      character_S (List.replicate 3 1) [1, 2] = (-1 : Int) ^ (3 - List.length [1, 2]) :=
  ⟨by decide, by decide, c7_column_partition_sign 3 [1, 2] (by decide) (by decide)⟩

/-! ## Geometry of valid shapes: straightness of DFS paths -/

lemma inCellsB_iff (shape : List Nat) (p : Int × Int) :
    inCellsB shape p = true ↔
      0 ≤ p.1 ∧ 0 ≤ p.2 ∧ p.1 < (shape.length : Int) ∧
        p.2 < ((shape.getD p.1.toNat 0 : Nat) : Int) := by
  simp only [inCellsB, Bool.and_eq_true, decide_eq_true_eq, and_assoc]

lemma inCellsB_pair_iff (shape : List Nat) (r c : Int) :
    inCellsB shape (r, c) = true ↔
      0 ≤ r ∧ 0 ≤ c ∧ r < (shape.length : Int) ∧
        c < ((shape.getD r.toNat 0 : Nat) : Int) :=
  inCellsB_iff shape (r, c)

lemma getD_mono_of_sorted (shape : List Nat) (hs : List.Sorted (· ≥ ·) shape)
    {i j : Nat} (hij : i ≤ j) : shape.getD j 0 ≤ shape.getD i 0 := by
  by_cases hj : j < shape.length
  · have hi : i < shape.length := by omega
    rw [List.getD_eq_getElem _ _ hj, List.getD_eq_getElem _ _ hi]
    rcases Nat.eq_or_lt_of_le hij with heq | hlt
    · subst heq
      exact le_refl _
    · have := List.pairwise_iff_get.1 hs ⟨i, hi⟩ ⟨j, hj⟩ hlt
      simpa [List.get_eq_getElem] using this
  · rw [List.getD_eq_default _ _ (by omega)]
    exact Nat.zero_le _

lemma inCells_left (shape : List Nat) {r c c' : Int}
    (h : inCellsB shape (r, c) = true) (h0 : 0 ≤ c') (hcc : c' ≤ c) :
    inCellsB shape (r, c') = true := by
  rw [inCellsB_pair_iff] at h ⊢
  obtain ⟨h1, h2, h3, h4⟩ := h
  exact ⟨h1, h0, h3, by omega⟩

lemma inCells_up (shape : List Nat) (hs : List.Sorted (· ≥ ·) shape) {r r' c : Int}
    (h : inCellsB shape (r, c) = true) (h0 : 0 ≤ r') (hrr : r' ≤ r) :
    inCellsB shape (r', c) = true := by
  rw [inCellsB_pair_iff] at h ⊢
  obtain ⟨h1, h2, h3, h4⟩ := h
  refine ⟨h0, h2, by omega, ?_⟩
  have hmono := getD_mono_of_sorted shape hs (show r'.toNat ≤ r.toNat by omega)
  omega

/-- After a move up (the cell below the path end is occupied), the cell to the
left of the path end is not an admissible next cell: it is either outside the
diagram or not a border cell. -/
lemma guard_false_left (shape : List Nat) (hs : List.Sorted (· ≥ ·) shape)
    {r c : Int} (hcell : inCellsB shape (r, c) = true)
    (hbelow : inCellsB shape (r + 1, c) = true) (X : Bool) :
    (inCellsB shape (r, c - 1) && X && borderB shape (r, c - 1)) = false := by
  by_cases hin : inCellsB shape (r, c - 1) = true
  · have h0 : (0 : Int) ≤ c - 1 := ((inCellsB_iff shape _).1 hin).2.1
    have hb : borderB shape (r, c - 1) = false := by
      have h1 : inCellsB shape (r, c - 1 + 1) = true := by
        have hco : c - 1 + 1 = c := by ring
        rw [hco]
        exact hcell
      have h2 : inCellsB shape (r + 1, c - 1) = true :=
        inCells_left shape hbelow h0 (by omega)
      simp only [borderB, h1, h2, Bool.not_true, Bool.or_self]
    rw [hb, Bool.and_false]
  · rw [Bool.eq_false_iff.2 hin, Bool.false_and, Bool.false_and]

/-- After a move left (the cell right of the path end is occupied), the cell
above the path end is not an admissible next cell. -/
lemma guard_false_up (shape : List Nat) (hs : List.Sorted (· ≥ ·) shape)
    {r c : Int} (hcell : inCellsB shape (r, c) = true)
    (hright : inCellsB shape (r, c + 1) = true) (X : Bool) :
    (inCellsB shape (r - 1, c) && X && borderB shape (r - 1, c)) = false := by
  by_cases hin : inCellsB shape (r - 1, c) = true
  · have h0 : (0 : Int) ≤ r - 1 := ((inCellsB_iff shape _).1 hin).1
    have hb : borderB shape (r - 1, c) = false := by
      have h1 : inCellsB shape (r - 1, c + 1) = true :=
        inCells_up shape hs hright h0 (by omega)
      have h2 : inCellsB shape (r - 1 + 1, c) = true := by
        have hco : r - 1 + 1 = r := by ring
        rw [hco]
        exact hcell
      simp only [borderB, h1, h2, Bool.not_true, Bool.or_self]
    rw [hb, Bool.and_false]
  · rw [Bool.eq_false_iff.2 hin, Bool.false_and, Bool.false_and]

/-! ## Structure of `vpath` and `hpath` -/

lemma vpath_length (r c : Int) (k : Nat) : (vpath r c k).length = k := by
  simp [vpath]

lemma hpath_length (r c : Int) (k : Nat) : (hpath r c k).length = k := by
  simp [hpath]

lemma vpath_head (r c : Int) (k : Nat) :
    vpath r c (k + 1) = (r, c) :: vpath (r + 1) c k := by
  unfold vpath
  rw [List.range_succ_eq_map, List.map_cons, List.map_map]
  refine congrArg₂ _ (by norm_num) ?_
  apply List.map_congr_left
  intro i _
  rw [Function.comp_apply, Prod.mk.injEq]
  exact ⟨by push_cast; ring, rfl⟩

lemma hpath_head (r c : Int) (k : Nat) :
    hpath r c (k + 1) = (r, c) :: hpath r (c + 1) k := by
  unfold hpath
  rw [List.range_succ_eq_map, List.map_cons, List.map_map]
  refine congrArg₂ _ (by norm_num) ?_
  apply List.map_congr_left
  intro i _
  rw [Function.comp_apply, Prod.mk.injEq]
  exact ⟨rfl, by push_cast; ring⟩

lemma vpath_cons (r c : Int) (k : Nat) :
    (r - 1, c) :: vpath r c k = vpath (r - 1) c (k + 1) := by
  rw [vpath_head (r - 1) c k, show r - 1 + 1 = r from by ring]

lemma hpath_cons (r c : Int) (k : Nat) :
    (r, c - 1) :: hpath r c k = hpath r (c - 1) (k + 1) := by
  rw [hpath_head r (c - 1) k, show c - 1 + 1 = c from by ring]

lemma mem_vpath {r c : Int} {k : Nat} {p : Int × Int} :
    p ∈ vpath r c k ↔ ∃ i : Nat, i < k ∧ p = (r + (i : Int), c) := by
  simp only [vpath, List.mem_map, List.mem_range]
  constructor
  · rintro ⟨i, hi, rfl⟩
    exact ⟨i, hi, rfl⟩
  · rintro ⟨i, hi, rfl⟩
    exact ⟨i, hi, rfl⟩

lemma mem_hpath {r c : Int} {k : Nat} {p : Int × Int} :
    p ∈ hpath r c k ↔ ∃ i : Nat, i < k ∧ p = (r, c + (i : Int)) := by
  simp only [hpath, List.mem_map, List.mem_range]
  constructor
  · rintro ⟨i, hi, rfl⟩
    exact ⟨i, hi, rfl⟩
  · rintro ⟨i, hi, rfl⟩
    exact ⟨i, hi, rfl⟩

lemma vpath_nodup (r c : Int) (k : Nat) : (vpath r c k).Nodup := by
  refine List.Nodup.map ?_ (List.nodup_range k)
  intro a b hab
  rw [Prod.mk.injEq] at hab
  omega

lemma hpath_nodup (r c : Int) (k : Nat) : (hpath r c k).Nodup := by
  refine List.Nodup.map ?_ (List.nodup_range k)
  intro a b hab
  rw [Prod.mk.injEq] at hab
  omega

lemma mem_cellsList (shape : List Nat) (p : Int × Int) :
    p ∈ cellsList shape ↔ inCellsB shape p = true := by
  unfold cellsList
  rw [inCellsB_iff]
  simp only [List.mem_flatMap, List.mem_map, List.mem_range]
  constructor
  · rintro ⟨r, hr, c, hc, rfl⟩
    refine ⟨by omega, by omega, ?_, ?_⟩
    · show ((r : Int)) < ((shape.length : Nat) : Int)
      exact_mod_cast hr
    · show ((c : Int)) < ((shape.getD ((r : Int)).toNat 0 : Nat) : Int)
      have hto : ((r : Int)).toNat = r := by omega
      rw [hto]
      exact_mod_cast hc
  · rintro ⟨h1, h2, h3, h4⟩
    refine ⟨p.1.toNat, by omega, p.2.toNat, by omega, ?_⟩
    rw [Prod.ext_iff]
    constructor
    · simp only
      omega
    · simp only
      omega

lemma mkHook_length_le_one (shape : List Nat) (L : Nat) (path : List (Int × Int)) :
    (mkHook shape L path).length ≤ 1 := by
  unfold mkHook
  split
  · simp
  · simp

/-! ## `OkPath` construction and extension -/

lemma vpath_one (r c : Int) : vpath r c 1 = [(r, c)] := by
  unfold vpath
  rw [show List.range 1 = [0] from rfl, List.map_cons, List.map_nil]
  norm_num

lemma hpath_one (r c : Int) : hpath r c 1 = [(r, c)] := by
  unfold hpath
  rw [show List.range 1 = [0] from rfl, List.map_cons, List.map_nil]
  norm_num

lemma isCornerB_border (shape : List Nat) {p : Int × Int}
    (hc : IsCornerB shape p = true) :
    inCellsB shape p = true ∧ borderB shape p = true := by
  unfold IsCornerB at hc
  simp only [Bool.and_eq_true, Bool.not_eq_true'] at hc
  obtain ⟨⟨hin, hr⟩, hb⟩ := hc
  refine ⟨hin, ?_⟩
  unfold borderB
  rw [hr, hb]
  rfl

lemma okPath_vpath_singleton (shape : List Nat) (r c : Int)
    (hc : IsCornerB shape (r + ((1 - 1 : Nat) : Int), c) = true) :
    OkPath shape (vpath r c 1) := by
  have hc' : IsCornerB shape (r, c) = true := by
    have hco : (r + ((1 - 1 : Nat) : Int), c) = (r, c) := by
      rw [Prod.mk.injEq]
      exact ⟨by norm_num, rfl⟩
    rw [hco] at hc
    exact hc
  obtain ⟨hin, hbd⟩ := isCornerB_border shape hc'
  constructor
  · intro q hq
    rw [vpath_one, List.mem_singleton] at hq
    subst hq
    exact ⟨hin, hbd⟩
  · exact ⟨r, c, 1, one_pos, vpath_length r c 1, Or.inl ⟨rfl, hc⟩⟩

lemma okPath_hpath_singleton (shape : List Nat) (r c : Int)
    (hc : IsCornerB shape (r, c + ((1 - 1 : Nat) : Int)) = true) :
    OkPath shape (hpath r c 1) := by
  have hc' : IsCornerB shape (r, c) = true := by
    have hco : (r, c + ((1 - 1 : Nat) : Int)) = (r, c) := by
      rw [Prod.mk.injEq]
      exact ⟨rfl, by norm_num⟩
    rw [hco] at hc
    exact hc
  obtain ⟨hin, hbd⟩ := isCornerB_border shape hc'
  constructor
  · intro q hq
    rw [hpath_one, List.mem_singleton] at hq
    subst hq
    exact ⟨hin, hbd⟩
  · exact ⟨r, c, 1, one_pos, hpath_length r c 1, Or.inr ⟨rfl, hc⟩⟩

lemma okPath_extend_up (shape : List Nat) {r c : Int} {k : Nat} (hk : 0 < k)
    (hOk : OkPath shape (vpath r c k))
    (hcorner : IsCornerB shape (r + ((k - 1 : Nat) : Int), c) = true)
    (hin : inCellsB shape (r - 1, c) = true)
    (hbd : borderB shape (r - 1, c) = true) :
    OkPath shape ((r - 1, c) :: vpath r c k) := by
  obtain ⟨hcells, -⟩ := hOk
  constructor
  · intro q hq
    rcases List.mem_cons.1 hq with rfl | hq
    · exact ⟨hin, hbd⟩
    · exact hcells q hq
  · refine ⟨r - 1, c, k + 1, by omega, ?_, Or.inl ⟨vpath_cons r c k, ?_⟩⟩
    · rw [List.length_cons, vpath_length]
    · have hco : (r - 1 + ((k + 1 - 1 : Nat) : Int), c)
          = (r + ((k - 1 : Nat) : Int), c) := by
        rw [Prod.mk.injEq]
        exact ⟨by omega, rfl⟩
      rw [hco]
      exact hcorner

lemma okPath_extend_left (shape : List Nat) {r c : Int} {k : Nat} (hk : 0 < k)
    (hOk : OkPath shape (hpath r c k))
    (hcorner : IsCornerB shape (r, c + ((k - 1 : Nat) : Int)) = true)
    (hin : inCellsB shape (r, c - 1) = true)
    (hbd : borderB shape (r, c - 1) = true) :
    OkPath shape ((r, c - 1) :: hpath r c k) := by
  obtain ⟨hcells, -⟩ := hOk
  constructor
  · intro q hq
    rcases List.mem_cons.1 hq with rfl | hq
    · exact ⟨hin, hbd⟩
    · exact hcells q hq
  · refine ⟨r, c - 1, k + 1, by omega, ?_, Or.inr ⟨hpath_cons r c k, ?_⟩⟩
    · rw [List.length_cons, hpath_length]
    · have hco : (r, c - 1 + ((k + 1 - 1 : Nat) : Int))
          = (r, c + ((k - 1 : Nat) : Int)) := by
        rw [Prod.mk.injEq]
        exact ⟨rfl, by omega⟩
      rw [hco]
      exact hcorner

lemma mem_vpath_self (r c : Int) {k : Nat} (hk : 0 < k) : (r, c) ∈ vpath r c k :=
  mem_vpath.2 ⟨0, hk, by rw [Prod.mk.injEq]; exact ⟨by norm_num, rfl⟩⟩

lemma mem_vpath_second (r c : Int) {k : Nat} (hk : 2 ≤ k) : (r + 1, c) ∈ vpath r c k :=
  mem_vpath.2 ⟨1, by omega, by rw [Prod.mk.injEq]; exact ⟨by norm_num, rfl⟩⟩

lemma mem_hpath_self (r c : Int) {k : Nat} (hk : 0 < k) : (r, c) ∈ hpath r c k :=
  mem_hpath.2 ⟨0, hk, by rw [Prod.mk.injEq]; exact ⟨rfl, by norm_num⟩⟩

lemma mem_hpath_second (r c : Int) {k : Nat} (hk : 2 ≤ k) : (r, c + 1) ∈ hpath r c k :=
  mem_hpath.2 ⟨1, by omega, by rw [Prod.mk.injEq]; exact ⟨rfl, by norm_num⟩⟩

/-- On a non-increasing shape the DFS cannot turn: from a directed path (two or
more cells) at most one extension survives, so at most one hook is recorded. -/
lemma dfs_count_le_one (shape : List Nat) (hs : List.Sorted (· ≥ ·) shape) (L : Nat) :
    ∀ fuel (P : List (Int × Int)), OkPath shape P → 2 ≤ P.length →
      (dfs shape L fuel P P).length ≤ 1 := by
  intro fuel
  induction fuel with
  | zero =>
      intro P hOk hlen2
      by_cases hlen : P.length = L
      · rw [dfs_base _ _ _ _ _ hlen]
        exact mkHook_length_le_one shape L P
      · rw [dfs_zero _ _ _ _ hlen]
        simp
  | succ f ih =>
      intro P hOk hlen2
      by_cases hlen : P.length = L
      · rw [dfs_base _ _ _ _ _ hlen]
        exact mkHook_length_le_one shape L P
      · obtain ⟨hcells, r, c, k, hk, hPlen, hrep⟩ := hOk
        rcases hrep with ⟨hPeq, hcorner⟩ | ⟨hPeq, hcorner⟩
        · -- vertical run, k ≥ 2
          obtain ⟨k0, rfl⟩ : ∃ k0, k = k0 + 1 := ⟨k - 1, by omega⟩
          have hk0 : 1 ≤ k0 := by omega
          have hcell : inCellsB shape (r, c) = true :=
            (hcells (r, c) (hPeq ▸ mem_vpath_self r c (by omega))).1
          have hbelow : inCellsB shape (r + 1, c) = true :=
            (hcells (r + 1, c) (hPeq ▸ mem_vpath_second r c (by omega))).1
          rw [hPeq] at hlen ⊢
          rw [vpath_head] at hlen ⊢
          rw [dfs_succ _ _ _ _ _ _ hlen]
          simp only [List.flatMap_cons, List.flatMap_nil, List.append_nil]
          rw [List.length_append]
          rw [show (r + (-1 : Int)) = r - 1 from by ring,
            show (c + (0 : Int)) = c from by ring,
            show (r + (0 : Int)) = r from by ring,
            show (c + (-1 : Int)) = c - 1 from by ring]
          have hb2 : (inCellsB shape (r, c - 1) &&
              !(((r, c) :: vpath (r + 1) c k0).contains (r, c - 1)) &&
              borderB shape (r, c - 1)) = false :=
            guard_false_left shape hs hcell hbelow _
          rw [hb2]
          simp only [Bool.false_eq_true, if_false, List.length_nil]
          by_cases hg : (inCellsB shape (r - 1, c) &&
              !(((r, c) :: vpath (r + 1) c k0).contains (r - 1, c)) &&
              borderB shape (r - 1, c)) = true
          · rw [if_pos hg]
            simp only [Bool.and_eq_true] at hg
            obtain ⟨⟨hin, -⟩, hbd⟩ := hg
            have hOkP : OkPath shape (vpath r c (k0 + 1)) := by
              refine ⟨fun p hp => hcells p (hPeq ▸ hp), r, c, k0 + 1, by omega,
                vpath_length r c (k0 + 1), Or.inl ⟨rfl, hcorner⟩⟩
            have hOk' : OkPath shape ((r - 1, c) :: vpath r c (k0 + 1)) :=
              okPath_extend_up shape (by omega) hOkP hcorner hin hbd
            rw [show ((r, c) :: vpath (r + 1) c k0) = vpath r c (k0 + 1) from
              (vpath_head r c k0).symm]
            have := ih ((r - 1, c) :: vpath r c (k0 + 1)) hOk'
              (by rw [List.length_cons, vpath_length]; omega)
            simpa using this
          · rw [if_neg hg]
            simp
        · -- horizontal run, k ≥ 2
          obtain ⟨k0, rfl⟩ : ∃ k0, k = k0 + 1 := ⟨k - 1, by omega⟩
          have hk0 : 1 ≤ k0 := by omega
          have hcell : inCellsB shape (r, c) = true :=
            (hcells (r, c) (hPeq ▸ mem_hpath_self r c (by omega))).1
          have hright : inCellsB shape (r, c + 1) = true :=
            (hcells (r, c + 1) (hPeq ▸ mem_hpath_second r c (by omega))).1
          rw [hPeq] at hlen ⊢
          rw [hpath_head] at hlen ⊢
          rw [dfs_succ _ _ _ _ _ _ hlen]
          simp only [List.flatMap_cons, List.flatMap_nil, List.append_nil]
          rw [List.length_append]
          rw [show (r + (-1 : Int)) = r - 1 from by ring,
            show (c + (0 : Int)) = c from by ring,
            show (r + (0 : Int)) = r from by ring,
            show (c + (-1 : Int)) = c - 1 from by ring]
          have hb1 : (inCellsB shape (r - 1, c) &&
              !(((r, c) :: hpath r (c + 1) k0).contains (r - 1, c)) &&
              borderB shape (r - 1, c)) = false :=
            guard_false_up shape hs hcell hright _
          rw [hb1]
          simp only [Bool.false_eq_true, if_false, List.length_nil]
          by_cases hg : (inCellsB shape (r, c - 1) &&
              !(((r, c) :: hpath r (c + 1) k0).contains (r, c - 1)) &&
              borderB shape (r, c - 1)) = true
          · rw [if_pos hg]
            simp only [Bool.and_eq_true] at hg
            obtain ⟨⟨hin, -⟩, hbd⟩ := hg
            have hOkP : OkPath shape (hpath r c (k0 + 1)) := by
              refine ⟨fun p hp => hcells p (hPeq ▸ hp), r, c, k0 + 1, by omega,
                hpath_length r c (k0 + 1), Or.inr ⟨rfl, hcorner⟩⟩
            have hOk' : OkPath shape ((r, c - 1) :: hpath r c (k0 + 1)) :=
              okPath_extend_left shape (by omega) hOkP hcorner hin hbd
            rw [show ((r, c) :: hpath r (c + 1) k0) = hpath r c (k0 + 1) from
              (hpath_head r c k0).symm]
            have := ih ((r, c - 1) :: hpath r c (k0 + 1)) hOk'
              (by rw [List.length_cons, hpath_length]; omega)
            simpa using this
          · rw [if_neg hg]
            simp

/-- From a single outer corner the DFS records at most two hooks (one straight
vertical, one straight horizontal). -/
lemma dfs_corner_le_two (shape : List Nat) (hs : List.Sorted (· ≥ ·) shape)
    (L fuel : Nat) (p : Int × Int) (hc : IsCornerB shape p = true) :
    (dfs shape L fuel [p] [p]).length ≤ 2 := by
  by_cases hlen : ([p] : List (Int × Int)).length = L
  · rw [dfs_base _ _ _ _ _ hlen]
    have := mkHook_length_le_one shape L [p]
    omega
  · cases fuel with
    | zero =>
        rw [dfs_zero _ _ _ _ hlen]
        simp
    | succ f =>
        rw [dfs_succ _ _ _ _ _ _ hlen]
        simp only [List.flatMap_cons, List.flatMap_nil, List.append_nil]
        rw [List.length_append]
        rw [show (p.1 + (-1 : Int)) = p.1 - 1 from by ring,
          show (p.2 + (0 : Int)) = p.2 from by ring,
          show (p.1 + (0 : Int)) = p.1 from by ring,
          show (p.2 + (-1 : Int)) = p.2 - 1 from by ring]
        have hcor1 : IsCornerB shape (p.1 + ((1 - 1 : Nat) : Int), p.2) = true := by
          have hco : (p.1 + ((1 - 1 : Nat) : Int), p.2) = p := by
            rw [Prod.ext_iff]
            exact ⟨by norm_num, rfl⟩
          rw [hco]
          exact hc
        have hcor2 : IsCornerB shape (p.1, p.2 + ((1 - 1 : Nat) : Int)) = true := by
          have hco : (p.1, p.2 + ((1 - 1 : Nat) : Int)) = p := by
            rw [Prod.ext_iff]
            exact ⟨rfl, by norm_num⟩
          rw [hco]
          exact hc
        have hsingv : vpath p.1 p.2 1 = [p] := by
          rw [vpath_one, Prod.mk.eta]
        have hsingh : hpath p.1 p.2 1 = [p] := by
          rw [hpath_one, Prod.mk.eta]
        have hb1 : (if (inCellsB shape (p.1 - 1, p.2) &&
            !(([p] : List (Int × Int)).contains (p.1 - 1, p.2)) &&
            borderB shape (p.1 - 1, p.2)) = true
            then dfs shape L f ((p.1 - 1, p.2) :: [p]) ((p.1 - 1, p.2) :: [p])
            else []).length ≤ 1 := by
          by_cases hg : (inCellsB shape (p.1 - 1, p.2) &&
              !(([p] : List (Int × Int)).contains (p.1 - 1, p.2)) &&
              borderB shape (p.1 - 1, p.2)) = true
          · rw [if_pos hg]
            simp only [Bool.and_eq_true] at hg
            obtain ⟨⟨hin, -⟩, hbd⟩ := hg
            have hOk1 := okPath_extend_up shape one_pos
              (okPath_vpath_singleton shape p.1 p.2 hcor1) hcor1 hin hbd
            rw [hsingv] at hOk1
            exact dfs_count_le_one shape hs L f _ hOk1 (by simp)
          · rw [if_neg hg]
            simp
        have hb2 : (if (inCellsB shape (p.1, p.2 - 1) &&
            !(([p] : List (Int × Int)).contains (p.1, p.2 - 1)) &&
            borderB shape (p.1, p.2 - 1)) = true
            then dfs shape L f ((p.1, p.2 - 1) :: [p]) ((p.1, p.2 - 1) :: [p])
            else []).length ≤ 1 := by
          by_cases hg : (inCellsB shape (p.1, p.2 - 1) &&
              !(([p] : List (Int × Int)).contains (p.1, p.2 - 1)) &&
              borderB shape (p.1, p.2 - 1)) = true
          · rw [if_pos hg]
            simp only [Bool.and_eq_true] at hg
            obtain ⟨⟨hin, -⟩, hbd⟩ := hg
            have hOk2 := okPath_extend_left shape one_pos
              (okPath_hpath_singleton shape p.1 p.2 hcor2) hcor2 hin hbd
            rw [hsingh] at hOk2
            exact dfs_count_le_one shape hs L f _ hOk2 (by simp)
          · rw [if_neg hg]
            simp
        omega

lemma corners_isCorner (shape : List Nat) {p : Int × Int} (hp : p ∈ corners shape) :
    IsCornerB shape p = true := by
  unfold corners at hp
  rw [List.mem_filter] at hp
  obtain ⟨hmem, hpred⟩ := hp
  have hin := (mem_cellsList shape p).1 hmem
  unfold IsCornerB
  rw [hin]
  simpa using hpred

/-! ## Claim C4 — a diagram can admit several hooks of one length (corrected) -/

/-- C4 counterexample: on the valid shape `[2,1]` with hook length `1`,
`rim_hooks` returns two pairs, not at most one. -/
theorem c4_more_than_one_hook :
    ValidShape [2, 1] ∧ 0 < 1 ∧ (rim_hooks [2, 1] 1).length = 2 := by
  refine ⟨⟨?_, ?_⟩, ?_, ?_⟩
  · simp [List.sorted_cons]
  · intro x hx
    fin_cases hx <;> norm_num
  · norm_num
  · decide

/-- C4 amended: a valid diagram may admit more than one removable rim hook of a
given length; `rim_hooks` returns at most two pairs per outer corner, i.e. its
result length is bounded by twice the number of outer corners. -/
theorem c4_at_most_two_hooks_per_corner (shape : List Nat) (len : Nat)
    (hvalid : ValidShape shape) (hlen : 0 < len) :
    (rim_hooks shape len).length ≤ 2 * (corners shape).length := by
  obtain ⟨hs, -⟩ := hvalid
  unfold rim_hooks
  rw [List.length_flatMap]
  have hbound : ∀ x ∈ (corners shape).map
      (List.length ∘ fun corner => dfs shape len len [corner] [corner]), x ≤ 2 := by
    intro x hx
    rw [List.mem_map] at hx
    obtain ⟨p, hp, rfl⟩ := hx
    exact dfs_corner_le_two shape hs len len p (corners_isCorner shape hp)
  have hsum := List.sum_le_card_nsmul _ 2 hbound
  rw [List.length_map, smul_eq_mul] at hsum
  omega

/-- Witness for C4's amended theorem at the counterexample input. -/
theorem c4_at_most_two_hooks_per_corner_w :
    ValidShape [2, 1] ∧ 0 < 1 ∧
      (rim_hooks [2, 1] 1).length ≤ 2 * (corners [2, 1]).length := by
  have hvalid : ValidShape [2, 1] := by
    refine ⟨?_, ?_⟩
    · simp [List.sorted_cons]
    · intro x hx
      fin_cases hx <;> norm_num
  exact ⟨hvalid, by norm_num,
    c4_at_most_two_hooks_per_corner [2, 1] 1 hvalid (by norm_num)⟩

/-- Soundness of the DFS on a sorted shape: every recorded hook is the record
of a straight corner-anchored border run of exactly the hook length. -/
lemma dfs_sound (shape : List Nat) (hs : List.Sorted (· ≥ ·) shape) (L : Nat) :
    ∀ fuel (P : List (Int × Int)), OkPath shape P →
      ∀ x ∈ dfs shape L fuel P P,
        ∃ Q, OkPath shape Q ∧ Q.length = L ∧ x ∈ mkHook shape L Q := by
  intro fuel
  induction fuel with
  | zero =>
      intro P hOk x hx
      by_cases hlen : P.length = L
      · rw [dfs_base _ _ _ _ _ hlen] at hx
        exact ⟨P, hOk, hlen, hx⟩
      · rw [dfs_zero _ _ _ _ hlen] at hx
        exact absurd hx (List.not_mem_nil x)
  | succ f ih =>
      intro P hOk x hx
      by_cases hlen : P.length = L
      · rw [dfs_base _ _ _ _ _ hlen] at hx
        exact ⟨P, hOk, hlen, hx⟩
      · obtain ⟨hcells, r, c, k, hk, hPlen, hrep⟩ := hOk
        rcases hrep with ⟨hPeq, hcorner⟩ | ⟨hPeq, hcorner⟩
        · -- vertical run
          obtain ⟨k0, rfl⟩ : ∃ k0, k = k0 + 1 := ⟨k - 1, by omega⟩
          have hcell : inCellsB shape (r, c) = true :=
            (hcells (r, c) (hPeq ▸ mem_vpath_self r c (by omega))).1
          rw [hPeq] at hlen hx
          rw [vpath_head] at hlen hx
          rw [dfs_succ _ _ _ _ _ _ hlen] at hx
          simp only [List.flatMap_cons, List.flatMap_nil, List.append_nil,
            List.mem_append] at hx
          rw [show (r + (-1 : Int)) = r - 1 from by ring,
            show (c + (0 : Int)) = c from by ring,
            show (r + (0 : Int)) = r from by ring,
            show (c + (-1 : Int)) = c - 1 from by ring] at hx
          have hOkP : OkPath shape (vpath r c (k0 + 1)) :=
            ⟨fun p hp => hcells p (hPeq ▸ hp), r, c, k0 + 1, by omega,
              vpath_length r c (k0 + 1), Or.inl ⟨rfl, hcorner⟩⟩
          rcases hx with hx | hx
          · -- upward extension
            by_cases hg : (inCellsB shape (r - 1, c) &&
                !(((r, c) :: vpath (r + 1) c k0).contains (r - 1, c)) &&
                borderB shape (r - 1, c)) = true
            · rw [if_pos hg] at hx
              simp only [Bool.and_eq_true] at hg
              obtain ⟨⟨hin, -⟩, hbd⟩ := hg
              have hOk' : OkPath shape ((r - 1, c) :: vpath r c (k0 + 1)) :=
                okPath_extend_up shape (by omega) hOkP hcorner hin hbd
              rw [show ((r, c) :: vpath (r + 1) c k0) = vpath r c (k0 + 1) from
                (vpath_head r c k0).symm] at hx
              exact ih _ hOk' x hx
            · rw [if_neg hg] at hx
              exact absurd hx (List.not_mem_nil x)
          · -- leftward extension
            rcases Nat.eq_zero_or_pos k0 with hk0 | hk0
            · -- the path is a single corner cell: reinterpret it horizontally
              subst hk0
              by_cases hg : (inCellsB shape (r, c - 1) &&
                  !(((r, c) :: vpath (r + 1) c 0).contains (r, c - 1)) &&
                  borderB shape (r, c - 1)) = true
              · rw [if_pos hg] at hx
                simp only [Bool.and_eq_true] at hg
                obtain ⟨⟨hin, -⟩, hbd⟩ := hg
                have hcor' : IsCornerB shape (r, c + ((1 - 1 : Nat) : Int)) = true := by
                  have ha : (r + ((1 - 1 : Nat) : Int), c) = (r, c) := by
                    rw [Prod.mk.injEq]
                    exact ⟨by norm_num, rfl⟩
                  have hb : (r, c + ((1 - 1 : Nat) : Int)) = (r, c) := by
                    rw [Prod.mk.injEq]
                    exact ⟨rfl, by norm_num⟩
                  rw [hb]
                  rw [ha] at hcorner
                  exact hcorner
                have hOk' : OkPath shape ((r, c - 1) :: hpath r c 1) :=
                  okPath_extend_left shape one_pos
                    (okPath_hpath_singleton shape r c hcor') hcor' hin hbd
                rw [show vpath (r + 1) c 0 = ([] : List (Int × Int)) from rfl] at hx
                rw [show ((r, c) :: ([] : List (Int × Int))) = hpath r c 1 from
                  (hpath_one r c).symm] at hx
                exact ih _ hOk' x hx
              · rw [if_neg hg] at hx
                exact absurd hx (List.not_mem_nil x)
            · -- the vertical run has length at least 2: no left turn possible
              have hbelow : inCellsB shape (r + 1, c) = true :=
                (hcells (r + 1, c) (hPeq ▸ mem_vpath_second r c (by omega))).1
              have hb2 : (inCellsB shape (r, c - 1) &&
                  !(((r, c) :: vpath (r + 1) c k0).contains (r, c - 1)) &&
                  borderB shape (r, c - 1)) = false :=
                guard_false_left shape hs hcell hbelow _
              rw [hb2] at hx
              simp only [Bool.false_eq_true, if_false] at hx
              exact absurd hx (List.not_mem_nil x)
        · -- horizontal run
          obtain ⟨k0, rfl⟩ : ∃ k0, k = k0 + 1 := ⟨k - 1, by omega⟩
          have hcell : inCellsB shape (r, c) = true :=
            (hcells (r, c) (hPeq ▸ mem_hpath_self r c (by omega))).1
          rw [hPeq] at hlen hx
          rw [hpath_head] at hlen hx
          rw [dfs_succ _ _ _ _ _ _ hlen] at hx
          simp only [List.flatMap_cons, List.flatMap_nil, List.append_nil,
            List.mem_append] at hx
          rw [show (r + (-1 : Int)) = r - 1 from by ring,
            show (c + (0 : Int)) = c from by ring,
            show (r + (0 : Int)) = r from by ring,
            show (c + (-1 : Int)) = c - 1 from by ring] at hx
          have hOkP : OkPath shape (hpath r c (k0 + 1)) :=
            ⟨fun p hp => hcells p (hPeq ▸ hp), r, c, k0 + 1, by omega,
              hpath_length r c (k0 + 1), Or.inr ⟨rfl, hcorner⟩⟩
          rcases hx with hx | hx
          · -- upward extension
            rcases Nat.eq_zero_or_pos k0 with hk0 | hk0
            · -- single corner cell: reinterpret vertically
              subst hk0
              by_cases hg : (inCellsB shape (r - 1, c) &&
                  !(((r, c) :: hpath r (c + 1) 0).contains (r - 1, c)) &&
                  borderB shape (r - 1, c)) = true
              · rw [if_pos hg] at hx
                simp only [Bool.and_eq_true] at hg
                obtain ⟨⟨hin, -⟩, hbd⟩ := hg
                have hcor' : IsCornerB shape (r + ((1 - 1 : Nat) : Int), c) = true := by
                  have ha : (r, c + ((1 - 1 : Nat) : Int)) = (r, c) := by
                    rw [Prod.mk.injEq]
                    exact ⟨rfl, by norm_num⟩
                  have hb : (r + ((1 - 1 : Nat) : Int), c) = (r, c) := by
                    rw [Prod.mk.injEq]
                    exact ⟨by norm_num, rfl⟩
                  rw [hb]
                  rw [ha] at hcorner
                  exact hcorner
                have hOk' : OkPath shape ((r - 1, c) :: vpath r c 1) :=
                  okPath_extend_up shape one_pos
                    (okPath_vpath_singleton shape r c hcor') hcor' hin hbd
                rw [show hpath r (c + 1) 0 = ([] : List (Int × Int)) from rfl] at hx
                rw [show ((r, c) :: ([] : List (Int × Int))) = vpath r c 1 from
                  (vpath_one r c).symm] at hx
                exact ih _ hOk' x hx
              · rw [if_neg hg] at hx
                exact absurd hx (List.not_mem_nil x)
            · -- the horizontal run has length at least 2: no up turn possible
              have hright : inCellsB shape (r, c + 1) = true :=
                (hcells (r, c + 1) (hPeq ▸ mem_hpath_second r c (by omega))).1
              have hb1 : (inCellsB shape (r - 1, c) &&
                  !(((r, c) :: hpath r (c + 1) k0).contains (r - 1, c)) &&
                  borderB shape (r - 1, c)) = false :=
                guard_false_up shape hs hcell hright _
              rw [hb1] at hx
              simp only [Bool.false_eq_true, if_false] at hx
              exact absurd hx (List.not_mem_nil x)
          · -- leftward extension
            by_cases hg : (inCellsB shape (r, c - 1) &&
                !(((r, c) :: hpath r (c + 1) k0).contains (r, c - 1)) &&
                borderB shape (r, c - 1)) = true
            · rw [if_pos hg] at hx
              simp only [Bool.and_eq_true] at hg
              obtain ⟨⟨hin, -⟩, hbd⟩ := hg
              have hOk' : OkPath shape ((r, c - 1) :: hpath r c (k0 + 1)) :=
                okPath_extend_left shape (by omega) hOkP hcorner hin hbd
              rw [show ((r, c) :: hpath r (c + 1) k0) = hpath r c (k0 + 1) from
                (hpath_head r c k0).symm] at hx
              exact ih _ hOk' x hx
            · rw [if_neg hg] at hx
              exact absurd hx (List.not_mem_nil x)

/-! ## Counting the residual cells row by row -/

lemma filter_flatMap {α β : Type} (l : List α) (g : α → List β) (p : β → Bool) :
    (l.flatMap g).filter p = l.flatMap (fun a => (g a).filter p) := by
  induction l with
  | nil => rfl
  | cons a l ih => rw [List.flatMap_cons, List.flatMap_cons, List.filter_append, ih]

lemma flatMap_support_single {β : Type} {g : Nat → List β} {n t : Nat} (ht : t < n)
    (h : ∀ r, r < n → r ≠ t → g r = []) : (List.range n).flatMap g = g t := by
  induction n with
  | zero => omega
  | succ n ih =>
      rw [List.range_succ, List.flatMap_append, List.flatMap_singleton]
      rcases Nat.lt_or_ge t n with htn | htn
      · rw [ih htn (fun r hr hrt => h r (by omega) hrt), h n (by omega) (by omega),
          List.append_nil]
      · have hteq : t = n := by omega
        subst hteq
        have hnil : (List.range t).flatMap g = [] := by
          rw [List.flatMap_eq_nil_iff]
          intro r hr
          rw [List.mem_range] at hr
          exact h r (by omega) (by omega)
        rw [hnil, List.nil_append]

lemma getD_map_range (f : Nat → Nat) (n t : Nat) (ht : t < n) :
    ((List.range n).map f).getD t 0 = f t := by
  rw [List.getD_eq_getElem _ _ (by simp [ht]), List.getElem_map, List.getElem_range]

/-- The source's per-row count over the whole cell list equals a count over the
cells of that one row. -/
lemma count_row_eq (shape : List Nat) (strip : List (Int × Int)) (t : Nat)
    (ht : t < shape.length) :
    ((cellsList shape).filter (fun p => !strip.contains p && p.1 == (t : Int))).length
      = ((List.range (shape.getD t 0)).filter
          (fun cc : Nat => !strip.contains ((t : Int), (cc : Int)))).length := by
  unfold cellsList
  rw [filter_flatMap]
  rw [flatMap_support_single ht (fun r hr hrt => ?_)]
  · rw [List.filter_map, List.length_map]
    have hcongr : ∀ cc ∈ List.range (shape.getD t 0),
        ((fun p : Int × Int => !strip.contains p && p.1 == (t : Int))
          ∘ (fun c : Nat => ((t : Int), (c : Int)))) cc
        = (fun cc : Nat => !strip.contains ((t : Int), (cc : Int))) cc := by
      intro cc hcc
      simp only [Function.comp_apply]
      have hbeq : (((t : Int), (cc : Int)).1 == (t : Int)) = true := by
        simp
      rw [hbeq, Bool.and_true]
    rw [List.filter_congr hcongr]
  · rw [List.filter_eq_nil_iff]
    intro p hp
    rw [List.mem_map] at hp
    obtain ⟨cc, -, rfl⟩ := hp
    simp only [Bool.and_eq_true]
    rintro ⟨-, hbeq⟩
    rw [beq_iff_eq] at hbeq
    have : r = t := by exact_mod_cast hbeq
    omega

lemma vpath_map_fst (r c : Int) (k : Nat) :
    (vpath r c k).map Prod.fst = (List.range k).map (fun i : Nat => r + (i : Int)) := by
  simp only [vpath, List.map_map]
  rfl

lemma hpath_map_fst (r c : Int) (k : Nat) :
    (hpath r c k).map Prod.fst = List.replicate k r := by
  simp only [hpath, List.map_map]
  have : ((Prod.fst ∘ fun i : Nat => (r, c + (i : Int)))) = fun _ : Nat => r := rfl
  rw [this, List.map_const']
  rw [List.length_range]

/-! ## Facts extracted from straight border runs -/

lemma inCellsB_natcoord_iff (shape : List Nat) (R C : Nat) :
    inCellsB shape ((R : Int), (C : Int)) = true ↔
      R < shape.length ∧ C < shape.getD R 0 := by
  rw [inCellsB_pair_iff]
  constructor
  · rintro ⟨-, -, h3, h4⟩
    have hto : ((R : Int)).toNat = R := by omega
    rw [hto] at h4
    exact ⟨by omega, by omega⟩
  · rintro ⟨h3, h4⟩
    refine ⟨by omega, by omega, by omega, ?_⟩
    have hto : ((R : Int)).toNat = R := by omega
    rw [hto]
    omega

lemma mem_vpath_iff_coords {R C k : Nat} {a b : Int} :
    ((a, b) ∈ vpath (R : Int) (C : Int) k) ↔
      ((R : Int) ≤ a ∧ a < (R : Int) + (k : Int) ∧ b = (C : Int)) := by
  rw [mem_vpath]
  constructor
  · rintro ⟨i, hi, heq⟩
    rw [Prod.mk.injEq] at heq
    obtain ⟨h1, h2⟩ := heq
    exact ⟨by omega, by omega, h2⟩
  · rintro ⟨h1, h2, h3⟩
    refine ⟨(a - (R : Int)).toNat, by omega, ?_⟩
    rw [Prod.mk.injEq]
    exact ⟨by omega, h3⟩

lemma mem_hpath_iff_coords {R C k : Nat} {a b : Int} :
    ((a, b) ∈ hpath (R : Int) (C : Int) k) ↔
      (a = (R : Int) ∧ (C : Int) ≤ b ∧ b < (C : Int) + (k : Int)) := by
  rw [mem_hpath]
  constructor
  · rintro ⟨i, hi, heq⟩
    rw [Prod.mk.injEq] at heq
    obtain ⟨h1, h2⟩ := heq
    exact ⟨h1, by omega, by omega⟩
  · rintro ⟨h1, h2, h3⟩
    refine ⟨(b - (C : Int)).toNat, by omega, ?_⟩
    rw [Prod.mk.injEq]
    exact ⟨h1, by omega⟩

/-- A vertical straight border run of length `k` ending at an outer corner
forces the rows it passes to be exactly of length `C+1`, and the next row to
be at most `C` long. -/
lemma vpath_geometry (shape : List Nat) {R C k : Nat} (hk : 0 < k)
    (hcells : ∀ p ∈ vpath (R : Int) (C : Int) k,
      inCellsB shape p = true ∧ borderB shape p = true)
    (hcorner : IsCornerB shape ((R : Int) + ((k - 1 : Nat) : Int), (C : Int)) = true) :
    (∀ i, i < k → R + i < shape.length ∧ shape.getD (R + i) 0 = C + 1) ∧
      shape.getD (R + k) 0 ≤ C := by
  unfold IsCornerB at hcorner
  simp only [Bool.and_eq_true, Bool.not_eq_true'] at hcorner
  obtain ⟨⟨-, hcright⟩, hcbelow⟩ := hcorner
  have hcoc1 : ((R : Int) + ((k - 1 : Nat) : Int), (C : Int) + 1)
      = (((R + (k - 1) : Nat) : Int), ((C + 1 : Nat) : Int)) := by
    rw [Prod.mk.injEq]
    exact ⟨by push_cast; ring, by push_cast; ring⟩
  have hcoc2 : ((R : Int) + ((k - 1 : Nat) : Int) + 1, (C : Int))
      = (((R + k : Nat) : Int), ((C : Nat) : Int)) := by
    rw [Prod.mk.injEq]
    exact ⟨by omega, rfl⟩
  rw [hcoc1] at hcright
  rw [hcoc2] at hcbelow
  constructor
  · intro i hi
    have hmem : ((R : Int) + (i : Int), (C : Int)) ∈ vpath (R : Int) (C : Int) k :=
      mem_vpath.2 ⟨i, hi, rfl⟩
    obtain ⟨hin, hbd⟩ := hcells _ hmem
    have hco1 : ((R : Int) + (i : Int), (C : Int))
        = (((R + i : Nat) : Int), ((C : Nat) : Int)) := by
      rw [Prod.mk.injEq]
      exact ⟨by push_cast; ring, rfl⟩
    rw [hco1, inCellsB_natcoord_iff] at hin
    obtain ⟨hrow, hcol⟩ := hin
    refine ⟨hrow, ?_⟩
    have hrightmiss : inCellsB shape
        (((R + i : Nat) : Int), ((C + 1 : Nat) : Int)) = false := by
      rcases Nat.lt_or_ge (i + 1) k with hik | hik
      · have hmem2 : ((R : Int) + ((i + 1 : Nat) : Int), (C : Int))
            ∈ vpath (R : Int) (C : Int) k := mem_vpath.2 ⟨i + 1, hik, rfl⟩
        have hbelow := (hcells _ hmem2).1
        have hco2 : ((R : Int) + ((i + 1 : Nat) : Int), (C : Int))
            = (((R + i + 1 : Nat) : Int), ((C : Nat) : Int)) := by
          rw [Prod.mk.injEq]
          exact ⟨by push_cast; ring, rfl⟩
        rw [hco2] at hbelow
        rw [hco1] at hbd
        unfold borderB at hbd
        simp only [Bool.or_eq_true, Bool.not_eq_true'] at hbd
        rcases hbd with hbd | hbd
        · have hco3 : (((R + i : Nat) : Int), ((C : Nat) : Int) + 1)
              = (((R + i : Nat) : Int), ((C + 1 : Nat) : Int)) := by
            rw [Prod.mk.injEq]
            exact ⟨rfl, by push_cast; ring⟩
          rw [hco3] at hbd
          exact hbd
        · have hco4 : (((R + i : Nat) : Int) + 1, ((C : Nat) : Int))
              = (((R + i + 1 : Nat) : Int), ((C : Nat) : Int)) := by
            rw [Prod.mk.injEq]
            exact ⟨by push_cast; ring, rfl⟩
          rw [hco4] at hbd
          rw [hbelow] at hbd
          cases hbd
      · have hieq : i = k - 1 := by omega
        subst hieq
        exact hcright
    have hnot : ¬(R + i < shape.length ∧ C + 1 < shape.getD (R + i) 0) := by
      intro hcontra
      rw [(inCellsB_natcoord_iff shape (R + i) (C + 1)).2 hcontra] at hrightmiss
      cases hrightmiss
    omega
  · have hnot : ¬(R + k < shape.length ∧ C < shape.getD (R + k) 0) := by
      intro hcontra
      rw [(inCellsB_natcoord_iff shape (R + k) C).2 hcontra] at hcbelow
      cases hcbelow
    by_cases hlen2 : R + k < shape.length
    · omega
    · rw [List.getD_eq_default _ _ (by omega)]
      omega

/-- A horizontal straight border run of length `k` ending at an outer corner
forces its row to have length exactly `C+k` and the next row to be at most
`C` long. -/
lemma hpath_geometry (shape : List Nat) {R C k : Nat} (hk : 0 < k)
    (hcells : ∀ p ∈ hpath (R : Int) (C : Int) k,
      inCellsB shape p = true ∧ borderB shape p = true)
    (hcorner : IsCornerB shape ((R : Int), (C : Int) + ((k - 1 : Nat) : Int)) = true) :
    R < shape.length ∧ shape.getD R 0 = C + k ∧ shape.getD (R + 1) 0 ≤ C := by
  unfold IsCornerB at hcorner
  simp only [Bool.and_eq_true, Bool.not_eq_true'] at hcorner
  obtain ⟨⟨-, hcright⟩, hcbelow⟩ := hcorner
  have hcoc1 : ((R : Int), (C : Int) + ((k - 1 : Nat) : Int) + 1)
      = (((R : Nat) : Int), ((C + k : Nat) : Int)) := by
    rw [Prod.mk.injEq]
    exact ⟨rfl, by omega⟩
  have hcoc2 : ((R : Int) + 1, (C : Int) + ((k - 1 : Nat) : Int))
      = (((R + 1 : Nat) : Int), ((C + (k - 1) : Nat) : Int)) := by
    rw [Prod.mk.injEq]
    exact ⟨by push_cast; ring, by push_cast; omega⟩
  rw [hcoc1] at hcright
  rw [hcoc2] at hcbelow
  have hmem0 : ((R : Int), (C : Int) + ((k - 1 : Nat) : Int))
      ∈ hpath (R : Int) (C : Int) k := mem_hpath.2 ⟨k - 1, by omega, rfl⟩
  have hcellcorner := (hcells _ hmem0).1
  have hcoc3 : ((R : Int), (C : Int) + ((k - 1 : Nat) : Int))
      = (((R : Nat) : Int), ((C + (k - 1) : Nat) : Int)) := by
    rw [Prod.mk.injEq]
    exact ⟨rfl, by push_cast; omega⟩
  rw [hcoc3, inCellsB_natcoord_iff] at hcellcorner
  obtain ⟨hrow, hcol⟩ := hcellcorner
  have hub : ¬(R < shape.length ∧ C + k < shape.getD R 0) := by
    intro hcontra
    rw [(inCellsB_natcoord_iff shape R (C + k)).2 hcontra] at hcright
    cases hcright
  refine ⟨hrow, by omega, ?_⟩
  -- the row below is at most C long
  have hbelowmiss : inCellsB shape (((R + 1 : Nat) : Int), ((C : Nat) : Int)) = false := by
    rcases Nat.lt_or_ge 1 k with hk2 | hk2
    · -- k ≥ 2: use the border of the leftmost run cell
      have hmem1 : ((R : Int), (C : Int)) ∈ hpath (R : Int) (C : Int) k :=
        mem_hpath_self _ _ hk
      have hmem2 : ((R : Int), (C : Int) + 1) ∈ hpath (R : Int) (C : Int) k :=
        mem_hpath_second _ _ (by omega)
      have hright := (hcells _ hmem2).1
      have hbd := (hcells _ hmem1).2
      unfold borderB at hbd
      simp only [Bool.or_eq_true, Bool.not_eq_true'] at hbd
      rcases hbd with hbd | hbd
      · rw [hbd] at hright
        cases hright
      · have hco5 : ((R : Int) + 1, (C : Int))
            = (((R + 1 : Nat) : Int), ((C : Nat) : Int)) := by
          rw [Prod.mk.injEq]
          exact ⟨by push_cast; ring, rfl⟩
        rw [hco5] at hbd
        exact hbd
    · -- k = 1: the corner's below-neighbour is missing
      have hkeq : k = 1 := by omega
      subst hkeq
      have hco6 : ((C + (1 - 1) : Nat) : Int) = ((C : Nat) : Int) := by norm_num
      rw [hco6] at hcbelow
      exact hcbelow
  have hnot : ¬(R + 1 < shape.length ∧ C < shape.getD (R + 1) 0) := by
    intro hcontra
    rw [(inCellsB_natcoord_iff shape (R + 1) C).2 hcontra] at hbelowmiss
    cases hbelowmiss
  by_cases hlen2 : R + 1 < shape.length
  · omega
  · rw [List.getD_eq_default _ _ (by omega)]
    omega

/-! ## Properties of the residual shapes -/

lemma removeVert_length (shape : List Nat) (R C k : Nat) :
    (removeVert shape R C k).length = shape.length := by
  simp [removeVert]

lemma removeVert_getD (shape : List Nat) (R C k t : Nat) (ht : t < shape.length) :
    (removeVert shape R C k).getD t 0
      = if R ≤ t ∧ t < R + k then C else shape.getD t 0 := by
  unfold removeVert
  exact getD_map_range _ _ _ ht

lemma removeHoriz_length (shape : List Nat) (R C : Nat) :
    (removeHoriz shape R C).length = shape.length := by
  simp [removeHoriz]

lemma removeHoriz_getD (shape : List Nat) (R C t : Nat) (ht : t < shape.length) :
    (removeHoriz shape R C).getD t 0 = if t = R then C else shape.getD t 0 := by
  unfold removeHoriz
  exact getD_map_range _ _ _ ht

lemma removeVert_sorted (shape : List Nat) (hs : List.Sorted (· ≥ ·) shape)
    {R C k : Nat} (hk : 0 < k)
    (hα : ∀ i, i < k → R + i < shape.length ∧ shape.getD (R + i) 0 = C + 1)
    (hβ : shape.getD (R + k) 0 ≤ C) :
    List.Sorted (· ≥ ·) (removeVert shape R C k) := by
  show List.Pairwise _ _
  rw [List.pairwise_iff_get]
  intro i j hij
  unfold removeVert
  simp only [List.get_eq_getElem, List.getElem_map, List.getElem_range]
  have hR0 : shape.getD (R + 0) 0 = C + 1 := (hα 0 hk).2
  rw [Nat.add_zero] at hR0
  have hilen : (i : Nat) < shape.length := by
    have := i.isLt
    simpa [removeVert] using this
  have hjlen : (j : Nat) < shape.length := by
    have := j.isLt
    simpa [removeVert] using this
  by_cases hiw : R ≤ (i : Nat) ∧ (i : Nat) < R + k
  · by_cases hjw : R ≤ (j : Nat) ∧ (j : Nat) < R + k
    · rw [if_pos hiw, if_pos hjw]
    · rw [if_pos hiw, if_neg hjw]
      have hjk : R + k ≤ (j : Nat) := by omega
      have hm := getD_mono_of_sorted shape hs hjk
      omega
  · by_cases hjw : R ≤ (j : Nat) ∧ (j : Nat) < R + k
    · rw [if_neg hiw, if_pos hjw]
      have hiR : (i : Nat) ≤ R := by omega
      have hm := getD_mono_of_sorted shape hs hiR
      omega
    · rw [if_neg hiw, if_neg hjw]
      exact getD_mono_of_sorted shape hs (by omega)

lemma removeHoriz_sorted (shape : List Nat) (hs : List.Sorted (· ≥ ·) shape)
    {R C k : Nat} (hk : 0 < k)
    (hrow : shape.getD R 0 = C + k) (hnext : shape.getD (R + 1) 0 ≤ C) :
    List.Sorted (· ≥ ·) (removeHoriz shape R C) := by
  show List.Pairwise _ _
  rw [List.pairwise_iff_get]
  intro i j hij
  unfold removeHoriz
  simp only [List.get_eq_getElem, List.getElem_map, List.getElem_range]
  by_cases hiw : (i : Nat) = R
  · by_cases hjw : (j : Nat) = R
    · omega
    · rw [if_pos hiw, if_neg hjw]
      have hjk : R + 1 ≤ (j : Nat) := by omega
      have hm := getD_mono_of_sorted shape hs hjk
      omega
  · by_cases hjw : (j : Nat) = R
    · rw [if_neg hiw, if_pos hjw]
      have hiR : (i : Nat) ≤ R := by omega
      have hm := getD_mono_of_sorted shape hs hiR
      omega
    · rw [if_neg hiw, if_neg hjw]
      exact getD_mono_of_sorted shape hs (by omega)

lemma removeVert_mem_iff (shape : List Nat) {R C k : Nat} (hk : 0 < k)
    (hα : ∀ i, i < k → R + i < shape.length ∧ shape.getD (R + i) 0 = C + 1) :
    ∀ p : Int × Int, inCellsB (removeVert shape R C k) p = true ↔
      (inCellsB shape p = true ∧ p ∉ vpath (R : Int) (C : Int) k) := by
  rintro ⟨a, b⟩
  rw [inCellsB_pair_iff, inCellsB_pair_iff, mem_vpath_iff_coords,
    removeVert_length]
  by_cases halen : 0 ≤ a ∧ a < (shape.length : Int)
  · have htl : a.toNat < shape.length := by omega
    rw [removeVert_getD shape R C k a.toNat htl]
    by_cases haw : R ≤ a.toNat ∧ a.toNat < R + k
    · rw [if_pos haw]
      have hrowlen := (hα (a.toNat - R) (by omega)).2
      rw [show R + (a.toNat - R) = a.toNat from by omega] at hrowlen
      rw [hrowlen]
      constructor
      · rintro ⟨h1, h2, h3, h4⟩
        exact ⟨⟨h1, h2, h3, by omega⟩, by omega⟩
      · rintro ⟨⟨h1, h2, h3, h4⟩, h5⟩
        refine ⟨h1, h2, h3, ?_⟩
        omega
    · rw [if_neg haw]
      constructor
      · rintro ⟨h1, h2, h3, h4⟩
        exact ⟨⟨h1, h2, h3, h4⟩, by omega⟩
      · rintro ⟨⟨h1, h2, h3, h4⟩, -⟩
        exact ⟨h1, h2, h3, h4⟩
  · constructor
    · rintro ⟨h1, h2, h3, h4⟩
      omega
    · rintro ⟨⟨h1, h2, h3, h4⟩, -⟩
      omega

lemma removeHoriz_mem_iff (shape : List Nat) {R C k : Nat} (hk : 0 < k)
    (hrow : shape.getD R 0 = C + k) :
    ∀ p : Int × Int, inCellsB (removeHoriz shape R C) p = true ↔
      (inCellsB shape p = true ∧ p ∉ hpath (R : Int) (C : Int) k) := by
  rintro ⟨a, b⟩
  rw [inCellsB_pair_iff, inCellsB_pair_iff, mem_hpath_iff_coords,
    removeHoriz_length]
  by_cases halen : 0 ≤ a ∧ a < (shape.length : Int)
  · have htl : a.toNat < shape.length := by omega
    rw [removeHoriz_getD shape R C a.toNat htl]
    by_cases haw : a.toNat = R
    · rw [if_pos haw, haw, hrow]
      constructor
      · rintro ⟨h1, h2, h3, h4⟩
        exact ⟨⟨h1, h2, h3, by omega⟩, by omega⟩
      · rintro ⟨⟨h1, h2, h3, h4⟩, h5⟩
        exact ⟨h1, h2, h3, by omega⟩
    · rw [if_neg haw]
      constructor
      · rintro ⟨h1, h2, h3, h4⟩
        exact ⟨⟨h1, h2, h3, h4⟩, by omega⟩
      · rintro ⟨⟨h1, h2, h3, h4⟩, -⟩
        exact ⟨h1, h2, h3, h4⟩
  · constructor
    · rintro ⟨h1, h2, h3, h4⟩
      omega
    · rintro ⟨⟨h1, h2, h3, h4⟩, -⟩
      omega

lemma newRowCounts_vertical (shape : List Nat) {R C k : Nat} (hk : 0 < k)
    (hα : ∀ i, i < k → R + i < shape.length ∧ shape.getD (R + i) 0 = C + 1) :
    newRowCounts shape (vpath (R : Int) (C : Int) k) = removeVert shape R C k := by
  unfold newRowCounts removeVert
  apply List.map_congr_left
  intro t ht
  rw [List.mem_range] at ht
  rw [count_row_eq shape _ t ht]
  by_cases htw : R ≤ t ∧ t < R + k
  · rw [if_pos htw]
    have hgt := (hα (t - R) (by omega)).2
    rw [show R + (t - R) = t from by omega] at hgt
    rw [hgt]
    apply filter_range_front_len (C + 1) C (by omega)
    intro cc hcc
    simp only [Bool.not_eq_true']
    constructor
    · intro hniff
      by_contra hcon
      have hcc2 : cc = C := by omega
      have hmem : ((t : Int), (cc : Int)) ∈ vpath (R : Int) (C : Int) k :=
        mem_vpath_iff_coords.2 ⟨by omega, by omega, by omega⟩
      rw [Bool.eq_false_iff] at hniff
      apply hniff
      simpa using hmem
    · intro hlt
      rw [Bool.eq_false_iff]
      intro hcon
      have hmem : ((t : Int), (cc : Int)) ∈ vpath (R : Int) (C : Int) k := by
        simpa using hcon
      rw [mem_vpath_iff_coords] at hmem
      omega
  · rw [if_neg htw]
    rw [List.filter_eq_self.2 (fun cc hcc => ?_), List.length_range]
    simp only [Bool.not_eq_true']
    rw [Bool.eq_false_iff]
    intro hcon
    have hmem : ((t : Int), (cc : Int)) ∈ vpath (R : Int) (C : Int) k := by
      simpa using hcon
    rw [mem_vpath_iff_coords] at hmem
    omega

lemma newRowCounts_horizontal (shape : List Nat) {R C k : Nat} (hk : 0 < k)
    (hRlen : R < shape.length) (hrow : shape.getD R 0 = C + k) :
    newRowCounts shape (hpath (R : Int) (C : Int) k) = removeHoriz shape R C := by
  unfold newRowCounts removeHoriz
  apply List.map_congr_left
  intro t ht
  rw [List.mem_range] at ht
  rw [count_row_eq shape _ t ht]
  by_cases htw : t = R
  · rw [if_pos htw, htw, hrow]
    apply filter_range_front_len (C + k) C (by omega)
    intro cc hcc
    simp only [Bool.not_eq_true']
    constructor
    · intro hniff
      by_contra hcon
      have hmem : ((R : Int), (cc : Int)) ∈ hpath (R : Int) (C : Int) k :=
        mem_hpath_iff_coords.2 ⟨rfl, by omega, by omega⟩
      rw [Bool.eq_false_iff] at hniff
      apply hniff
      simpa using hmem
    · intro hlt
      rw [Bool.eq_false_iff]
      intro hcon
      have hmem : ((R : Int), (cc : Int)) ∈ hpath (R : Int) (C : Int) k := by
        simpa using hcon
      rw [mem_hpath_iff_coords] at hmem
      omega
  · rw [if_neg htw]
    rw [List.filter_eq_self.2 (fun cc hcc => ?_), List.length_range]
    simp only [Bool.not_eq_true']
    rw [Bool.eq_false_iff]
    intro hcon
    have hmem : ((t : Int), (cc : Int)) ∈ hpath (R : Int) (C : Int) k := by
      simpa using hcon
    rw [mem_hpath_iff_coords] at hmem
    have : t = R := by omega
    omega

lemma vpath_dedup_fst_length (r c : Int) (k : Nat) :
    (((vpath r c k).map Prod.fst).dedup).length = k := by
  rw [vpath_map_fst]
  have hnd : ((List.range k).map (fun i : Nat => r + (i : Int))).Nodup := by
    refine List.Nodup.map ?_ (List.nodup_range k)
    intro a b hab
    have hab2 : r + (a : Int) = r + (b : Int) := hab
    omega
  rw [List.Nodup.dedup hnd, List.length_map, List.length_range]

lemma hpath_dedup_fst_length (r c : Int) {k : Nat} (hk : 0 < k) :
    (((hpath r c k).map Prod.fst).dedup).length = 1 := by
  rw [hpath_map_fst, dedup_replicate_pos k hk r]
  rfl

/-- The record of a straight corner-anchored border run satisfies the full
output contract of `rim_hooks`. -/
lemma mkHook_ok_of_okPath (shape : List Nat) (hs : List.Sorted (· ≥ ·) shape)
    {Q : List (Int × Int)} (hOk : OkPath shape Q) {L : Nat} (hQL : Q.length = L)
    {ns : List Nat} {h : Nat} (hmem : (ns, h) ∈ mkHook shape L Q) :
    RimHookOutputOK shape L ns h := by
  obtain ⟨hcells, r, c, k, hk, hQlen, hrep⟩ := hOk
  have hkL : k = L := by omega
  subst hkL
  unfold mkHook at hmem
  by_cases hcond : (((newShapeOf shape Q).sum : Int) = (shape.sum : Int) - (k : Int))
  · rw [if_pos hcond] at hmem
    rw [List.mem_singleton, Prod.mk.injEq] at hmem
    obtain ⟨hns, hh⟩ := hmem
    have hsum0 : ns.sum = (newShapeOf shape Q).sum := by
      rw [hns]
      exact (List.perm_insertionSort _ _).sum_eq
    rcases hrep with ⟨hQeq, hcorner⟩ | ⟨hQeq, hcorner⟩
    · -- vertical run
      have hhead := (hcells (r, c) (hQeq ▸ mem_vpath_self r c hk)).1
      rw [inCellsB_pair_iff] at hhead
      obtain ⟨hr0, hc0, -, -⟩ := hhead
      obtain ⟨R, rfl⟩ : ∃ R : Nat, r = (R : Int) := ⟨r.toNat, by omega⟩
      obtain ⟨C, rfl⟩ : ∃ C : Nat, c = (C : Int) := ⟨c.toNat, by omega⟩
      obtain ⟨hα, hβ⟩ :=
        vpath_geometry shape hk (fun p hp => hcells p (hQeq ▸ hp)) hcorner
      have hrows := newRowCounts_vertical shape hk hα
      have hsorted := removeVert_sorted shape hs hk hα hβ
      have hsortfil : List.Sorted (· ≥ ·)
          ((removeVert shape R C k).filter (fun x => decide (0 < x))) :=
        List.Pairwise.filter _ hsorted
      have hnsval : ns = (removeVert shape R C k).filter (fun x => decide (0 < x)) := by
        rw [hns]
        unfold newShapeOf
        rw [hQeq, hrows]
        exact List.Sorted.insertionSort_eq hsortfil
      refine ⟨?_, ?_, ?_, ?_⟩
      · rw [hnsval]
        exact hsortfil
      · intro x hx
        rw [hnsval, List.mem_filter] at hx
        simpa using hx.2
      · omega
      · refine ⟨vpath (R : Int) (C : Int) k, vpath_nodup _ _ _,
          vpath_length _ _ _, fun p hp => (hcells p (hQeq ▸ hp)).1, ?_,
          removeVert shape R C k, hsorted, removeVert_mem_iff shape hk hα, hnsval⟩
        rw [hQeq] at hh
        rw [vpath_dedup_fst_length] at hh
        rw [vpath_dedup_fst_length]
        omega
    · -- horizontal run
      have hhead := (hcells (r, c) (hQeq ▸ mem_hpath_self r c hk)).1
      rw [inCellsB_pair_iff] at hhead
      obtain ⟨hr0, hc0, -, -⟩ := hhead
      obtain ⟨R, rfl⟩ : ∃ R : Nat, r = (R : Int) := ⟨r.toNat, by omega⟩
      obtain ⟨C, rfl⟩ : ∃ C : Nat, c = (C : Int) := ⟨c.toNat, by omega⟩
      obtain ⟨hRlen, hrow, hnext⟩ :=
        hpath_geometry shape hk (fun p hp => hcells p (hQeq ▸ hp)) hcorner
      have hrows := newRowCounts_horizontal shape hk hRlen hrow
      have hsorted := removeHoriz_sorted shape hs hk hrow hnext
      have hsortfil : List.Sorted (· ≥ ·)
          ((removeHoriz shape R C).filter (fun x => decide (0 < x))) :=
        List.Pairwise.filter _ hsorted
      have hnsval : ns = (removeHoriz shape R C).filter (fun x => decide (0 < x)) := by
        rw [hns]
        unfold newShapeOf
        rw [hQeq, hrows]
        exact List.Sorted.insertionSort_eq hsortfil
      refine ⟨?_, ?_, ?_, ?_⟩
      · rw [hnsval]
        exact hsortfil
      · intro x hx
        rw [hnsval, List.mem_filter] at hx
        simpa using hx.2
      · omega
      · refine ⟨hpath (R : Int) (C : Int) k, hpath_nodup _ _ _,
          hpath_length _ _ _, fun p hp => (hcells p (hQeq ▸ hp)).1, ?_,
          removeHoriz shape R C, hsorted, removeHoriz_mem_iff shape hk hrow, hnsval⟩
        rw [hQeq] at hh
        rw [hpath_dedup_fst_length _ _ hk] at hh
        rw [hpath_dedup_fst_length _ _ hk]
        omega
  · rw [if_neg hcond] at hmem
    exact absurd hmem (List.not_mem_nil _)

/-! ## Claim C9 — soundness of every returned `(new_shape, height)` pair
(confirmed) -/

/-- C9: on a valid shape and positive hook length, every pair returned by
`rim_hooks` is sound: the new shape is non-increasing with positive entries
summing to `sum(shape) - length`, it arises by removing a duplicate-free set
of diagram cells whose residual is a left-justified valid Young diagram, and
the height is the number of distinct rows touched by the removed path minus
one. -/
theorem c9_rim_hooks_output_sound (shape : List Nat) (len : Nat)
    (hvalid : ValidShape shape) (hlen : 0 < len) :
    ∀ ns h, (ns, h) ∈ rim_hooks shape len → RimHookOutputOK shape len ns h := by
  intro ns h hmem
  unfold rim_hooks at hmem
  rw [List.mem_flatMap] at hmem
  obtain ⟨p, hp, hmem⟩ := hmem
  have hc := corners_isCorner shape hp
  have hcor1 : IsCornerB shape (p.1 + ((1 - 1 : Nat) : Int), p.2) = true := by
    have hco : (p.1 + ((1 - 1 : Nat) : Int), p.2) = p := by
      rw [Prod.ext_iff]
      exact ⟨by norm_num, rfl⟩
    rw [hco]
    exact hc
  have hOkp : OkPath shape [p] := by
    have := okPath_vpath_singleton shape p.1 p.2 hcor1
    rw [vpath_one, Prod.mk.eta] at this
    exact this
  obtain ⟨Q, hOkQ, hQL, hmemQ⟩ :=
    dfs_sound shape hvalid.1 len len [p] hOkp (ns, h) hmem
  exact mkHook_ok_of_okPath shape hvalid.1 hOkQ hQL hmemQ

/-- Witness for C9 at the shape `[2,1]`, hook length 1 and the first returned
pair `([1,1], 0)`. -/
theorem c9_rim_hooks_output_sound_w :
    ValidShape [2, 1] ∧ 0 < 1 ∧ ([1, 1], 0) ∈ rim_hooks [2, 1] 1 ∧
      RimHookOutputOK [2, 1] 1 [1, 1] 0 := by
  have hvalid : ValidShape [2, 1] := by
    refine ⟨?_, ?_⟩
    · simp [List.sorted_cons]
    · intro x hx
      fin_cases hx <;> norm_num
  refine ⟨hvalid, by norm_num, by decide, ?_⟩
  exact c9_rim_hooks_output_sound [2, 1] 1 hvalid (by norm_num) [1, 1] 0 (by decide)
